import Mathlib

/-!
Verification of the ChatLab storage-and-query engine.

The development shallowly embeds the two source modules that the claims
concern:

* `DB` — the session store and import engine of
  `src/electron/main/database/index.ts` (`importData`, `deleteSession`,
  `getMemberActivity`).  SQL tables are lists of row structures; the
  single import transaction is reified as a list of operations so that
  rollback at an arbitrary failure point can be stated.
* `AIQ` — the AI query module of `src/unnamed/part_000`
  (`getRecentMessages`, `searchMessages`, `getMessageContext`).  That
  module runs against a schema whose `member` table carries
  `account_name` and `group_nickname` columns, exactly as its SQL reads.

`ORDER BY` clauses are modelled by a stable insertion sort (JavaScript
`Array.prototype.sort` is stable, and SQL ordering fixes only the sort
key); `JOIN member ON msg.sender_id = m.id` is modelled by `List.find?`
on the primary key.
-/

/-- Stable insertion of `x` into `l`: `x` is placed before the first
element `y` with `le x y`.  For equal keys the inserted element keeps its
original (earlier) position, matching a stable sort. -/
def insLe (le : α → α → Bool) (x : α) : List α → List α
  | [] => [x]
  | y :: ys => if le x y then x :: y :: ys else y :: insLe le x ys

/-- Stable insertion sort by the boolean relation `le`. -/
def isortBy (le : α → α → Bool) : List α → List α
  | [] => []
  | x :: xs => insLe le x (isortBy le xs)

namespace DB

/-! ## Data model of `src/electron/main/database/index.ts` -/

/-- One entry of `ParseResult.members`. -/
structure ParsedMember where
  platformId : String
  name : String
deriving DecidableEq

/-- One entry of `ParseResult.messages`. -/
structure ParsedMessage where
  senderPlatformId : String
  senderName : String
  timestamp : Int
  type : Int
  content : Option String
deriving DecidableEq

/-- `ParseResult.meta`. -/
structure ParseMeta where
  name : String
  platform : String
  type : String
deriving DecidableEq

/-- The normalized parser output consumed by `importData`. -/
structure ParseResult where
  meta : ParseMeta
  members : List ParsedMember
  messages : List ParsedMessage
deriving DecidableEq

/-- A row of the `member` table. -/
structure MemberRow where
  id : Nat
  platformId : String
  name : String
deriving DecidableEq

/-- A row of the `member_name_history` table (`end_ts` nullable). -/
structure HistoryRow where
  memberId : Nat
  name : String
  startTs : Int
  endTs : Option Int
deriving DecidableEq

/-- A row of the `message` table. -/
structure MessageRow where
  senderId : Nat
  ts : Int
  type : Int
  content : Option String
deriving DecidableEq

/-- The singleton `meta` row. -/
structure MetaRow where
  name : String
  platform : String
  type : String
  importedAt : Int
deriving DecidableEq

/-- The relational state of one session database file. -/
structure Store where
  meta : Option MetaRow
  members : List MemberRow
  history : List HistoryRow
  messages : List MessageRow
deriving DecidableEq

/-- The state `createDatabase` leaves behind: schema applied, no rows. -/
def emptyStore : Store := ⟨none, [], [], []⟩

/-- A session file is listed/readable as a session only when it has a
`meta` row (`getAllSessions` and `getSession` skip it otherwise). -/
def sessionReadable (s : Store) : Bool := s.meta.isSome

/-- `INSERT OR IGNORE INTO member (platform_id, name)`:
`AUTOINCREMENT` assigns ids `1, 2, …`. -/
def insertMemberRow (rows : List MemberRow) (pm : ParsedMember) : List MemberRow :=
  if rows.any (fun r => r.platformId == pm.platformId) then rows
  else rows ++ [⟨rows.length + 1, pm.platformId, pm.name⟩]

/-- The member table after the member-insertion loop of `importData`. -/
def memberRowsOf (l : List ParsedMember) : List MemberRow := l.foldl insertMemberRow []

/-- `SELECT id FROM member WHERE platform_id = ?` (the in-memory
`memberIdMap` is exactly this lookup, since `platform_id` is UNIQUE). -/
def memberIdOf (rows : List MemberRow) (pid : String) : Option Nat :=
  (rows.find? (fun r => r.platformId == pid)).map (fun r => r.id)

/-- Transient per-sender tracker state of the nickname walk. -/
structure TrackerEntry where
  currentName : String
  lastSeenTs : Int
deriving DecidableEq

/-- The `nicknameTracker` map, as an insertion-ordered association list. -/
abbrev Tracker := List (String × TrackerEntry)

def lookupTracker (tr : Tracker) (pid : String) : Option TrackerEntry :=
  (tr.find? (fun e => e.1 == pid)).map (fun e => e.2)

/-- `Map.set` on an existing key: update in place, keep insertion order. -/
def updateTracker (tr : Tracker) (pid : String) (te : TrackerEntry) : Tracker :=
  tr.map (fun e => if e.1 == pid then (pid, te) else e)

/-- `UPDATE member_name_history SET end_ts = ? WHERE member_id = ? AND
end_ts IS NULL`. -/
def closeOpenHistory (hist : List HistoryRow) (mid : Nat) (ts : Int) : List HistoryRow :=
  hist.map (fun h => if h.memberId == mid && h.endTs.isNone then { h with endTs := some ts } else h)

/-- The comparator `(a, b) => a.timestamp - b.timestamp` of the message
sort. -/
def leTs (a b : ParsedMessage) : Bool := decide (a.timestamp ≤ b.timestamp)

/-- `[...parseResult.messages].sort((a, b) => a.timestamp - b.timestamp)`
— a stable ascending sort by timestamp. -/
def sortMessages (l : List ParsedMessage) : List ParsedMessage := isortBy leTs l

/-- The per-message body of the import loop: insert the message row,
then maintain the nickname tracker and the `member_name_history` table. -/
def walkStore (members : List MemberRow) : Store → Tracker → List ParsedMessage → Store × Tracker
  | s, tr, [] => (s, tr)
  | s, tr, msg :: rest =>
    match memberIdOf members msg.senderPlatformId with
    | none => walkStore members s tr rest
    | some sid =>
      let s1 : Store :=
        { s with messages := s.messages ++ [⟨sid, msg.timestamp, msg.type, msg.content⟩] }
      match lookupTracker tr msg.senderPlatformId with
      | none =>
        walkStore members
          { s1 with history := s1.history ++ [⟨sid, msg.senderName, msg.timestamp, none⟩] }
          (tr ++ [(msg.senderPlatformId, ⟨msg.senderName, msg.timestamp⟩)]) rest
      | some te =>
        if te.currentName ≠ msg.senderName then
          walkStore members
            { s1 with history := closeOpenHistory s1.history sid msg.timestamp
                ++ [⟨sid, msg.senderName, msg.timestamp, none⟩] }
            (updateTracker tr msg.senderPlatformId ⟨msg.senderName, msg.timestamp⟩) rest
        else
          walkStore members s1
            (updateTracker tr msg.senderPlatformId ⟨te.currentName, msg.timestamp⟩) rest

/-- `UPDATE member SET name = ? WHERE platform_id = ?`. -/
def updateMemberNameRow (pid name : String) (r : MemberRow) : MemberRow :=
  if r.platformId == pid then { r with name := name } else r

/-- The post-walk loop updating each member's durable `name` from the
tracker's final `currentName`. -/
def applyNameUpdates (tr : Tracker) (rows : List MemberRow) : List MemberRow :=
  tr.foldl (fun rows e => rows.map (updateMemberNameRow e.1 e.2.currentName)) rows

/-- `importData`: insert meta, insert members, sort messages by
timestamp, walk them maintaining nickname history, finally write back
the latest nicknames.  `now` is the wall-clock import timestamp. -/
def importData (now : Int) (pr : ParseResult) : Store :=
  let members0 := memberRowsOf pr.members
  let base : Store :=
    { meta := some ⟨pr.meta.name, pr.meta.platform, pr.meta.type, now⟩
      members := members0, history := [], messages := [] }
  let res := walkStore members0 base [] (sortMessages pr.messages)
  { res.1 with members := applyNameUpdates res.2 res.1.members }

/-- The name-history rows of one member, in insertion order. -/
def memberHistory (s : Store) (mid : Nat) : List HistoryRow :=
  s.history.filter (fun h => h.memberId == mid)

/-- The store state right before the message walk: meta row written,
member table filled, no history, no messages. -/
def importBase (now : Int) (pr : ParseResult) : Store :=
  { meta := some ⟨pr.meta.name, pr.meta.platform, pr.meta.type, now⟩
    members := memberRowsOf pr.members, history := [], messages := [] }

/-- The walk phase of `importData`, starting from the base store and an
empty tracker. -/
def importWalk (now : Int) (pr : ParseResult) : Store × Tracker :=
  walkStore (memberRowsOf pr.members) (importBase now pr) [] (sortMessages pr.messages)

/-! ### The import transaction, reified

Every SQL statement `importData` executes runs inside the single
`db.transaction(...)` call.  To state atomicity we reify that statement
sequence; better-sqlite3 rolls the whole transaction back when the body
throws, so a failure before the end commits nothing. -/

/-- One SQL write executed by the import transaction body. -/
inductive TxnOp where
  | insertMeta (name platform type : String) (importedAt : Int)
  | insertMemberIgnore (platformId name : String)
  | insertMessage (senderId : Nat) (ts : Int) (type : Int) (content : Option String)
  | insertNameHistory (memberId : Nat) (name : String) (startTs : Int) (endTs : Option Int)
  | updateNameHistoryEndTs (ts : Int) (memberId : Nat)
  | updateMemberName (name : String) (platformId : String)
deriving DecidableEq

/-- Effect of one write on the store. -/
def applyTxnOp (s : Store) : TxnOp → Store
  | .insertMeta name platform type ia => { s with meta := some ⟨name, platform, type, ia⟩ }
  | .insertMemberIgnore pid name =>
      if s.members.any (fun r => r.platformId == pid) then s
      else { s with members := s.members ++ [⟨s.members.length + 1, pid, name⟩] }
  | .insertMessage sid ts ty c => { s with messages := s.messages ++ [⟨sid, ts, ty, c⟩] }
  | .insertNameHistory mid name st en => { s with history := s.history ++ [⟨mid, name, st, en⟩] }
  | .updateNameHistoryEndTs ts mid => { s with history := closeOpenHistory s.history mid ts }
  | .updateMemberName name pid =>
      { s with members := s.members.map (updateMemberNameRow pid name) }

/-- The writes of the nickname walk, in execution order, together with
the final tracker state. -/
def walkOps (members : List MemberRow) : Tracker → List ParsedMessage → List TxnOp × Tracker
  | tr, [] => ([], tr)
  | tr, msg :: rest =>
    match memberIdOf members msg.senderPlatformId with
    | none => walkOps members tr rest
    | some sid =>
      let msgOp := TxnOp.insertMessage sid msg.timestamp msg.type msg.content
      match lookupTracker tr msg.senderPlatformId with
      | none =>
        let next := walkOps members
          (tr ++ [(msg.senderPlatformId, ⟨msg.senderName, msg.timestamp⟩)]) rest
        (msgOp :: .insertNameHistory sid msg.senderName msg.timestamp none :: next.1, next.2)
      | some te =>
        if te.currentName ≠ msg.senderName then
          let next := walkOps members
            (updateTracker tr msg.senderPlatformId ⟨msg.senderName, msg.timestamp⟩) rest
          (msgOp :: .updateNameHistoryEndTs msg.timestamp sid
            :: .insertNameHistory sid msg.senderName msg.timestamp none :: next.1, next.2)
        else
          let next := walkOps members
            (updateTracker tr msg.senderPlatformId ⟨te.currentName, msg.timestamp⟩) rest
          (msgOp :: next.1, next.2)

/-- The complete statement sequence of the import transaction body. -/
def importTxnOps (now : Int) (pr : ParseResult) : List TxnOp :=
  let members0 := memberRowsOf pr.members
  let walked := walkOps members0 [] (sortMessages pr.messages)
  TxnOp.insertMeta pr.meta.name pr.meta.platform pr.meta.type now
    :: pr.members.map (fun pm => TxnOp.insertMemberIgnore pm.platformId pm.name)
    ++ walked.1
    ++ walked.2.map (fun e => TxnOp.updateMemberName e.2.currentName e.1)

/-- Transaction semantics: the body either runs to completion and every
write commits, or it throws while executing operation `k` and the store
is rolled back to the pre-transaction state.  The boolean reports
commit. -/
def runTransaction (pre : Store) (ops : List TxnOp) : Option Nat → Store × Bool
  | none => (ops.foldl applyTxnOp pre, true)
  | some k => if k < ops.length then (pre, false) else (ops.foldl applyTxnOp pre, true)

/-- `importData` as executed against a freshly created session file,
with an optional failure point inside the transaction body. -/
def importDataRun (now : Int) (pr : ParseResult) (failAt : Option Nat) : Store × Bool :=
  runTransaction emptyStore (importTxnOps now pr) failAt

/-! ### Analytics: `getMemberActivity` -/

/-- `TimeFilter` — both bounds inclusive and independently optional. -/
structure TimeFilter where
  startTs : Option Int := none
  endTs : Option Int := none

/-- `buildTimeFilter`: `ts >= startTs AND ts <= endTs`, omitted bounds
dropped. -/
def inTimeFilter (f : TimeFilter) (ts : Int) : Bool :=
  (match f.startTs with | none => true | some a => decide (a ≤ ts)) &&
  (match f.endTs with | none => true | some b => decide (ts ≤ b))

/-- The reserved system sender name. -/
def systemName : String := "系统消息"

/-- One row of the `getMemberActivity` result. -/
structure MemberActivity where
  memberId : Nat
  platformId : String
  name : String
  messageCount : Nat
  percentage : ℚ
deriving DecidableEq

/-- `COUNT(msg.id)` for one member under the time filter (the join
condition also repeats the system filter on `m`, which is redundant for
a fixed non-system member). -/
def memberMsgCount (s : Store) (f : TimeFilter) (mid : Nat) : Nat :=
  (s.messages.filter (fun g => g.senderId == mid && inTimeFilter f g.ts)).length

/-- The separately computed total:
`SELECT COUNT(*) FROM message msg JOIN member m ON msg.sender_id = m.id`
under the time filter and `m.name != '系统消息'`. -/
def totalMessages (s : Store) (f : TimeFilter) : Nat :=
  (s.messages.filter (fun g => inTimeFilter f g.ts &&
    match s.members.find? (fun m => m.id == g.senderId) with
    | some m => m.name != systemName
    | none => false)).length

/-- `Math.round(count / total * 10000) / 100`, or `0` when the total is
`0` (rational arithmetic stands in for JavaScript doubles). -/
def activityPercentage (count total : Nat) : ℚ :=
  if 0 < total then ((round (((count : ℚ) / (total : ℚ)) * 10000) : ℤ) : ℚ) / 100 else 0

/-- `getMemberActivity`: per non-system member the filtered message
count and rounded percentage, rows with zero messages dropped
(`HAVING messageCount > 0`), ordered by count descending. -/
def getMemberActivity (s : Store) (f : TimeFilter) : List MemberActivity :=
  let total := totalMessages s f
  let rows := (s.members.filter (fun m => m.name != systemName)).map (fun m =>
    { memberId := m.id, platformId := m.platformId, name := m.name
      messageCount := memberMsgCount s f m.id
      percentage := activityPercentage (memberMsgCount s f m.id) total : MemberActivity })
  isortBy (fun a b => decide (b.messageCount ≤ a.messageCount))
    (rows.filter (fun r => decide (0 < r.messageCount)))

/-! ### `deleteSession` and the session files -/

/-- The file system visible to `deleteSession`: the set of existing
paths, plus the paths whose `fs.unlinkSync` raises (modelling disk
errors — the `catch` branch). -/
structure FsState where
  files : List String
  failing : List String
deriving DecidableEq

/-- `fs.unlinkSync`: `none` models a raised error. -/
def unlinkSync (fs : FsState) (p : String) : Option FsState :=
  if p ∈ fs.failing then none else some { fs with files := fs.files.erase p }

/-- `if (fs.existsSync(p)) fs.unlinkSync(p)`. -/
def tryUnlinkIfExists (fs : FsState) (p : String) : Option FsState :=
  if p ∈ fs.files then unlinkSync fs p else some fs

/-- Primary session file path (`getDbPath`). -/
def dbPath (sessionId : String) : String := sessionId ++ ".db"

/-- `deleteSession`: conditionally unlink the primary `.db` file and its
`-wal`/`-shm` side files; any raised error is caught and `false`
returned, otherwise `true`. -/
def deleteSession (fs : FsState) (sessionId : String) : Bool × FsState :=
  let db := dbPath sessionId
  match tryUnlinkIfExists fs db with
  | none => (false, fs)
  | some fs1 =>
    match tryUnlinkIfExists fs1 (db ++ "-wal") with
    | none => (false, fs1)
    | some fs2 =>
      match tryUnlinkIfExists fs2 (db ++ "-shm") with
      | none => (false, fs2)
      | some fs3 => (true, fs3)

end DB

namespace AIQ

/-! ## Data model of the AI query module (`src/unnamed/part_000`)

Its SQL reads `member(id, platform_id, account_name, group_nickname)`
and `message(id, sender_id, ts, type, content)`; `openDatabase` comes
from a `core` module and yields `null` when the session file is
missing. -/

/-- A row of the `member` table as this module reads it. -/
structure MemberRow where
  id : Nat
  platformId : String
  accountName : Option String
  groupNickname : Option String
deriving DecidableEq

/-- A row of the `message` table, with its `id` primary key. -/
structure MessageRow where
  id : Nat
  senderId : Nat
  ts : Int
  type : Int
  content : Option String
deriving DecidableEq

/-- The relational state this module queries. -/
structure Store where
  members : List MemberRow
  messages : List MessageRow
deriving DecidableEq

/-- Time filter (same `buildTimeFilter` as the core module). -/
structure TimeFilter where
  startTs : Option Int := none
  endTs : Option Int := none

def inTimeFilter (f : TimeFilter) (ts : Int) : Bool :=
  (match f.startTs with | none => true | some a => decide (a ≤ ts)) &&
  (match f.endTs with | none => true | some b => decide (ts ≤ b))

/-- `COALESCE(m.group_nickname, m.account_name, m.platform_id)`. -/
def displayName (m : MemberRow) : String :=
  (m.groupNickname.orElse (fun _ => m.accountName)).getD m.platformId

/-- `COALESCE(m.account_name, '') != '系统消息'` negated. -/
def isSystemSender (m : MemberRow) : Bool := m.accountName.getD "" == "系统消息"

/-- `msg.content IS NOT NULL AND msg.content != ''`. -/
def contentNonEmpty (c : Option String) : Bool :=
  match c with
  | none => false
  | some s => s != ""

/-- The result row shape shared by all queries of this module. -/
structure SearchMessageResult where
  id : Nat
  senderName : String
  senderPlatformId : String
  content : Option String
  timestamp : Int
  type : Int
deriving DecidableEq

def mkResult (msg : MessageRow) (m : MemberRow) : SearchMessageResult :=
  ⟨msg.id, displayName m, m.platformId, msg.content, msg.ts, msg.type⟩

/-- `JOIN member m ON msg.sender_id = m.id` (`member.id` is the primary
key, so at most one row matches). -/
def senderOf (s : Store) (msg : MessageRow) : Option MemberRow :=
  s.members.find? (fun m => m.id == msg.senderId)

/-! ### `getRecentMessages` -/

/-- The rows matching the `getRecentMessages` WHERE clause: time filter,
non-system sender, `msg.type = 0`, non-empty content. -/
def recentMatching (s : Store) (f : TimeFilter) : List SearchMessageResult :=
  s.messages.filterMap (fun msg =>
    match senderOf s msg with
    | none => none
    | some m =>
      if inTimeFilter f msg.ts && !isSystemSender m && msg.type == 0
          && contentNonEmpty msg.content
      then some (mkResult msg m) else none)

/-- `getRecentMessages`: `total` counts every match; the rows are the
`limit` most recent matches (`ORDER BY msg.ts DESC LIMIT ?`), reversed
into chronological order before returning. -/
def getRecentMessages (db : Option Store) (f : TimeFilter) (limit : Nat) :
    List SearchMessageResult × Nat :=
  match db with
  | none => ([], 0)
  | some s =>
    let matching := recentMatching s f
    (((isortBy (fun a b => decide (b.timestamp ≤ a.timestamp)) matching).take limit).reverse,
      matching.length)

/-! ### `searchMessages` and SQL `LIKE` -/

/-- All suffixes of a character list, longest first. -/
def suffixes : List Char → List (List Char)
  | [] => [[]]
  | c :: cs => (c :: cs) :: suffixes cs

/-- SQLite `LIKE` matching: `%` matches any sequence, `_` any single
character, other characters match ASCII case-insensitively (SQLite's
default `LIKE` is case-insensitive); no ESCAPE clause is used.  The
first argument is fuel, always instantiated with the pattern length
(every step consumes one pattern character). -/
def likeMatchF : Nat → List Char → List Char → Bool
  | _, [], s => s.isEmpty
  | 0, _ :: _, _ => false
  | f + 1, '%' :: ps, s => (suffixes s).any (fun t => likeMatchF f ps t)
  | _ + 1, '_' :: _, [] => false
  | f + 1, '_' :: ps, _ :: cs => likeMatchF f ps cs
  | _ + 1, _ :: _, [] => false
  | f + 1, p :: ps, c :: cs => (p.toLower == c.toLower) && likeMatchF f ps cs

/-- `pattern LIKE`-matches the subject. -/
def likeMatch (p s : List Char) : Bool := likeMatchF p.length p s

/-- `msg.content LIKE '%' || keyword || '%'` (the keyword is spliced
into the pattern unescaped); a NULL content never matches. -/
def contentLike (keyword : String) (content : Option String) : Bool :=
  match content with
  | none => false
  | some c => likeMatch ('%' :: keyword.toList ++ ['%']) c.toList

/-- The `searchMessages` WHERE clause: keyword OR-list (empty list is
`1=1`), time filter, system filter and optional sender filter. -/
def searchPred (keywords : List String) (f : TimeFilter)
    (senderId : Option Nat) (msg : MessageRow) (m : MemberRow) : Bool :=
  (keywords.isEmpty || keywords.any (fun k => contentLike k msg.content))
    && inTimeFilter f msg.ts
    && !isSystemSender m
    && (match senderId with | none => true | some sid => msg.senderId == sid)

def searchMatching (s : Store) (keywords : List String) (f : TimeFilter)
    (senderId : Option Nat) : List SearchMessageResult :=
  s.messages.filterMap (fun msg =>
    match senderOf s msg with
    | none => none
    | some m => if searchPred keywords f senderId msg m then some (mkResult msg m) else none)

/-- `searchMessages`: matches ordered `ts DESC`, paginated with
`LIMIT ? OFFSET ?`; `total` is the unpaginated count. -/
def searchMessages (db : Option Store) (keywords : List String) (f : TimeFilter)
    (limit : Nat) (offset : Nat) (senderId : Option Nat) :
    List SearchMessageResult × Nat :=
  match db with
  | none => ([], 0)
  | some s =>
    let matching := searchMatching s keywords f senderId
    (((isortBy (fun a b => decide (b.timestamp ≤ a.timestamp)) matching).drop offset).take limit,
      matching.length)

/-! ### `getMessageContext` -/

/-- `Set.add`: insertion-ordered, ignoring duplicates. -/
def insertNew (l : List Nat) (x : Nat) : List Nat :=
  if x ∈ l then l else l ++ [x]

/-- The ids of the stored messages. -/
def messageIds (s : Store) : List Nat := s.messages.map (fun g => g.id)

/-- `SELECT id FROM message WHERE id < ? ORDER BY id DESC LIMIT ?`. -/
def beforeIds (s : Store) (x : Nat) (k : Nat) : List Nat :=
  (isortBy (fun a b => decide (b ≤ a)) ((messageIds s).filter (fun y => decide (y < x)))).take k

/-- `SELECT id FROM message WHERE id > ? ORDER BY id ASC LIMIT ?`. -/
def afterIds (s : Store) (x : Nat) (k : Nat) : List Nat :=
  (isortBy (fun a b => decide (a ≤ b)) ((messageIds s).filter (fun y => decide (x < y)))).take k

/-- The deduplicated union of each target id with its before/after
neighbourhoods, in `Set` insertion order. -/
def contextIds (s : Store) (ids : List Nat) (k : Nat) : List Nat :=
  ids.foldl (fun acc x =>
    (afterIds s x k).foldl insertNew ((beforeIds s x k).foldl insertNew (insertNew acc x))) []

/-- `getMessageContext`: empty result for a missing store or an empty
id list; otherwise the context-id set is fetched back joined with
`member` and ordered `msg.id ASC`.  No content, type or sender filter
appears in any of its queries. -/
def getMessageContext (db : Option Store) (messageIdList : List Nat) (contextSize : Nat) :
    List SearchMessageResult :=
  match db with
  | none => []
  | some s =>
    if messageIdList.isEmpty then []
    else
      let cids := contextIds s messageIdList contextSize
      if cids.isEmpty then []
      else
        let joined := s.messages.filterMap (fun msg =>
          if cids.contains msg.id then (senderOf s msg).map (mkResult msg) else none)
        isortBy (fun a b => decide (a.id ≤ b.id)) joined

end AIQ

namespace DB

/-! ## Specification predicates for the nickname history -/

/-- Shape of one member's history rows while that member's tracker entry
is `{currentName := nm, lastSeenTs := ls}`: a contiguous chain of closed
half-open intervals followed by exactly one open interval carrying the
tracker's current name, whose start is no later than the last sighting. -/
def HistOk : List HistoryRow → String → Int → Prop
  | [], _, _ => False
  | [a], nm, ls => a.endTs = none ∧ a.name = nm ∧ a.startTs ≤ ls
  | a :: b :: rest, nm, ls =>
    a.endTs = some b.startTs ∧ a.startTs ≤ b.startTs ∧ HistOk (b :: rest) nm ls

/-- Invariant maintained by the nickname walk, relating the store, the
tracker and the fixed member table. -/
structure WalkInv (members : List MemberRow) (s : Store) (tr : Tracker) : Prop where
  keysNodup : (tr.map (fun e => e.1)).Nodup
  histEmpty : ∀ pid mid, memberIdOf members pid = some mid →
    lookupTracker tr pid = none → memberHistory s mid = []
  histOk : ∀ pid mid te, memberIdOf members pid = some mid →
    lookupTracker tr pid = some te →
    HistOk (memberHistory s mid) te.currentName te.lastSeenTs

/-- The claimed nickname-history invariant for one member id: intervals
ordered by `start_ts` and non-overlapping, exactly one open interval,
the open interval is the chronologically last one, and the member's
stored `name` equals the open interval's name. -/
def NicknameInvariant (s : Store) (mid : Nat) : Prop :=
  (memberHistory s mid).Pairwise
    (fun a b => a.startTs ≤ b.startTs ∧ ∃ e, a.endTs = some e ∧ e ≤ b.startTs)
  ∧ (memberHistory s mid).countP (fun r => r.endTs.isNone) = 1
  ∧ ∃ last, (memberHistory s mid).getLast? = some last ∧ last.endTs = none
      ∧ ∀ m ∈ s.members, m.id = mid → m.name = last.name

/-- The name each member row ends up with after the post-walk
`UPDATE member SET name` loop (first tracker entry for its platform id,
which is unique once tracker keys are distinct). -/
def finalNameOf (tr : Tracker) (r : MemberRow) : MemberRow :=
  match lookupTracker tr r.platformId with
  | some te => { r with name := te.currentName }
  | none => r

/-! ## Concrete fixtures used by counterexamples and witnesses -/

/-- Parse result with one member that never sends a message. -/
def prSilentMember : ParseResult :=
  ⟨⟨"g", "qq", "group"⟩, [⟨"x", "X"⟩], []⟩

/-- Parse result whose single message has an unknown sender platform
id. -/
def prGhostSender : ParseResult :=
  ⟨⟨"g", "qq", "group"⟩, [], [⟨"ghost", "G", 5, 0, some "hi"⟩]⟩

/-- The concrete rename scenario of the specification: member `x` sends
as "Alice" at 100, "Alicia" at 200 and 300; member `y` sends as "Bob"
at 150. -/
def prRename : ParseResult :=
  ⟨⟨"g", "qq", "group"⟩, [⟨"x", "Alice"⟩, ⟨"y", "Bob"⟩],
    [⟨"x", "Alice", 100, 0, some "a"⟩, ⟨"y", "Bob", 150, 0, some "b"⟩,
     ⟨"x", "Alicia", 200, 0, some "c"⟩, ⟨"x", "Alicia", 300, 0, some "d"⟩]⟩

/-- Two messages of one sender with tied timestamps but different
nicknames, in the two orders. -/
def msgsTieA : List ParsedMessage :=
  [⟨"x", "Alice", 100, 0, some "a"⟩, ⟨"x", "Alicia", 100, 0, some "b"⟩]

def msgsTieB : List ParsedMessage :=
  [⟨"x", "Alicia", 100, 0, some "b"⟩, ⟨"x", "Alice", 100, 0, some "a"⟩]

def metaTie : ParseMeta := ⟨"g", "qq", "group"⟩

def membersTie : List ParsedMember := [⟨"x", "Alice"⟩]

/-- Two messages with distinct timestamps, in the two orders. -/
def msgsDistinctA : List ParsedMessage :=
  [⟨"x", "Alice", 100, 0, some "a"⟩, ⟨"x", "Alicia", 200, 0, some "b"⟩]

def msgsDistinctB : List ParsedMessage :=
  [⟨"x", "Alicia", 200, 0, some "b"⟩, ⟨"x", "Alice", 100, 0, some "a"⟩]

/-- A file system holding one session's primary and WAL files plus an
unrelated file, with no failing unlinks. -/
def fsW : FsState := ⟨["chat_1.db", "chat_1.db-wal", "other"], []⟩

end DB

namespace AIQ

/-- Five plain messages of one member, ids 1–5. -/
def storeFive : Store :=
  ⟨[⟨1, "p", some "al", none⟩],
   [⟨1, 1, 10, 0, some "m1"⟩, ⟨2, 1, 11, 0, some "m2"⟩, ⟨3, 1, 12, 0, some "m3"⟩,
    ⟨4, 1, 13, 0, some "m4"⟩, ⟨5, 1, 14, 0, some "m5"⟩]⟩

/-- One message whose content "abc" does not contain the keyword
"a_c" literally but matches it as a LIKE pattern. -/
def storeWildcard : Store :=
  ⟨[⟨1, "p1", some "alice", none⟩], [⟨1, 1, 100, 0, some "abc"⟩]⟩

end AIQ

/-! # Theorems -/

theorem perm_insLe (le : α → α → Bool) (x : α) : ∀ l : List α, (insLe le x l).Perm (x :: l)
  | [] => List.Perm.refl _
  | y :: ys => by
    simp only [insLe]
    split
    · exact List.Perm.refl _
    · exact ((perm_insLe le x ys).cons y).trans (List.Perm.swap _ _ _)

theorem perm_isortBy (le : α → α → Bool) : ∀ l : List α, (isortBy le l).Perm l
  | [] => List.Perm.refl _
  | x :: xs => (perm_insLe le x (isortBy le xs)).trans ((perm_isortBy le xs).cons x)

theorem mem_insLe {le : α → α → Bool} {x z : α} {l : List α} :
    z ∈ insLe le x l ↔ z = x ∨ z ∈ l := by
  rw [(perm_insLe le x l).mem_iff, List.mem_cons]

theorem mem_isortBy {le : α → α → Bool} {z : α} {l : List α} :
    z ∈ isortBy le l ↔ z ∈ l :=
  (perm_isortBy le l).mem_iff

theorem pairwise_insLe {le : α → α → Bool}
    (htot : ∀ a b, le a b = false → le b a = true)
    (htrans : ∀ a b c, le a b = true → le b c = true → le a c = true)
    (x : α) : ∀ {l : List α}, l.Pairwise (fun a b => le a b = true) →
    (insLe le x l).Pairwise (fun a b => le a b = true) := by
  intro l
  induction l with
  | nil => intro _; simp [insLe]
  | cons y ys ih =>
    intro h
    rw [List.pairwise_cons] at h
    simp only [insLe]
    split
    · rename_i hxy
      refine List.pairwise_cons.2 ⟨?_, List.pairwise_cons.2 ⟨h.1, h.2⟩⟩
      intro z hz
      rcases List.mem_cons.1 hz with rfl | hz
      · exact hxy
      · exact htrans _ _ _ hxy (h.1 z hz)
    · rename_i hxy
      refine List.pairwise_cons.2 ⟨?_, ih h.2⟩
      intro z hz
      rcases mem_insLe.1 hz with rfl | hz
      · exact htot _ _ (Bool.eq_false_iff.2 hxy ▸ rfl)
      · exact h.1 z hz

theorem pairwise_isortBy (le : α → α → Bool)
    (htot : ∀ a b, le a b = false → le b a = true)
    (htrans : ∀ a b c, le a b = true → le b c = true → le a c = true) :
    ∀ l : List α, (isortBy le l).Pairwise (fun a b => le a b = true)
  | [] => List.Pairwise.nil
  | x :: xs => pairwise_insLe htot htrans x (pairwise_isortBy le htot htrans xs)

/-- Two lists that are permutations of each other, are both sorted by a
key, and have pairwise-distinct keys are equal. -/
theorem eq_of_perm_of_sorted_of_nodup_key {κ : Type} [LinearOrder κ] (key : α → κ) :
    ∀ {l1 l2 : List α}, l1.Perm l2 →
      l1.Pairwise (fun a b => key a ≤ key b) →
      l2.Pairwise (fun a b => key a ≤ key b) →
      (l1.map key).Nodup → l1 = l2 := by
  intro l1
  induction l1 with
  | nil => intro l2 hp _ _ _; exact (hp.nil_eq).symm ▸ rfl
  | cons a t1 ih =>
    intro l2 hp hs1 hs2 hnd
    cases l2 with
    | nil => exact absurd hp.symm (by simp)
    | cons b t2 =>
      have hab : a = b := by
        have ha2 : a ∈ b :: t2 := hp.mem_iff.1 (List.mem_cons_self a t1)
        have hb1 : b ∈ a :: t1 := hp.symm.mem_iff.1 (List.mem_cons_self b t2)
        rcases List.mem_cons.1 ha2 with h | ha2
        · exact h
        rcases List.mem_cons.1 hb1 with h | hb1
        · exact h.symm
        have h1 : key a ≤ key b := (List.pairwise_cons.1 hs1).1 b hb1
        have h2 : key b ≤ key a := (List.pairwise_cons.1 hs2).1 a ha2
        have hk : key a = key b := le_antisymm h1 h2
        have : key b ∈ t1.map key := List.mem_map.2 ⟨b, hb1, rfl⟩
        exact absurd (hk ▸ this) ((List.nodup_cons.1 hnd).1)
      subst hab
      have := ih hp.cons_inv (List.pairwise_cons.1 hs1).2 (List.pairwise_cons.1 hs2).2
        (List.nodup_cons.1 hnd).2
      rw [this]



theorem nodup_concat_iff {α : Type} {l : List α} {a : α} :
    (l ++ [a]).Nodup ↔ l.Nodup ∧ a ∉ l := by
  rw [(@List.perm_append_comm _ l [a]).nodup_iff]
  simp [List.nodup_cons, and_comm]

namespace DB

theorem insertMemberRow_inv {rows : List MemberRow} (pm : ParsedMember)
    (hb : ∀ r ∈ rows, r.id ≤ rows.length)
    (hid : (rows.map (fun r => r.id)).Nodup)
    (hpid : (rows.map (fun r => r.platformId)).Nodup) :
    (∀ r ∈ insertMemberRow rows pm, r.id ≤ (insertMemberRow rows pm).length) ∧
    ((insertMemberRow rows pm).map (fun r => r.id)).Nodup ∧
    ((insertMemberRow rows pm).map (fun r => r.platformId)).Nodup := by
  unfold insertMemberRow
  split
  · exact ⟨hb, hid, hpid⟩
  · rename_i hany
    refine ⟨?_, ?_, ?_⟩
    · intro r hr
      rcases List.mem_append.1 hr with hr | hr
      · have := hb r hr
        simp only [List.length_append, List.length_cons, List.length_nil]
        omega
      · simp only [List.mem_singleton] at hr
        subst hr
        simp [List.length_append]
    · rw [List.map_append, List.map_singleton, nodup_concat_iff]
      refine ⟨hid, ?_⟩
      intro ha
      rcases List.mem_map.1 ha with ⟨r, hr, he⟩
      have := hb r hr
      simp only at he
      omega
    · rw [List.map_append, List.map_singleton, nodup_concat_iff]
      refine ⟨hpid, ?_⟩
      intro ha
      rcases List.mem_map.1 ha with ⟨r, hr, he⟩
      have : rows.any (fun r => r.platformId == pm.platformId) = true :=
        List.any_eq_true.2 ⟨r, hr, by simp [he]⟩
      simp [this] at hany

theorem memberRows_foldl_inv (l : List ParsedMember) :
    ∀ rows : List MemberRow, (∀ r ∈ rows, r.id ≤ rows.length) →
      (rows.map (fun r => r.id)).Nodup → (rows.map (fun r => r.platformId)).Nodup →
      (∀ r ∈ l.foldl insertMemberRow rows, r.id ≤ (l.foldl insertMemberRow rows).length) ∧
      ((l.foldl insertMemberRow rows).map (fun r => r.id)).Nodup ∧
      ((l.foldl insertMemberRow rows).map (fun r => r.platformId)).Nodup := by
  induction l with
  | nil => intro rows hb hid hpid; exact ⟨hb, hid, hpid⟩
  | cons pm rest ih =>
    intro rows hb hid hpid
    have step := insertMemberRow_inv pm hb hid hpid
    exact ih (insertMemberRow rows pm) step.1 step.2.1 step.2.2

theorem memberRowsOf_ids_nodup (l : List ParsedMember) :
    ((memberRowsOf l).map (fun r => r.id)).Nodup :=
  (memberRows_foldl_inv l [] (by simp) (by simp) (by simp)).2.1

theorem memberRowsOf_pids_nodup (l : List ParsedMember) :
    ((memberRowsOf l).map (fun r => r.platformId)).Nodup :=
  (memberRows_foldl_inv l [] (by simp) (by simp) (by simp)).2.2

theorem memberIdOf_some {rows : List MemberRow} {pid : String} {i : Nat}
    (h : memberIdOf rows pid = some i) :
    ∃ r ∈ rows, r.platformId = pid ∧ r.id = i := by
  unfold memberIdOf at h
  rcases Option.map_eq_some'.1 h with ⟨r, hr, hi⟩
  refine ⟨r, List.mem_of_find?_eq_some hr, ?_, hi⟩
  have := List.find?_some hr
  simpa using this

theorem memberIdOf_inj {rows : List MemberRow}
    (hid : (rows.map (fun r => r.id)).Nodup) {p q : String} {i : Nat}
    (hp : memberIdOf rows p = some i) (hq : memberIdOf rows q = some i) : p = q := by
  rcases memberIdOf_some hp with ⟨r, hr, hrp, hri⟩
  rcases memberIdOf_some hq with ⟨u, hu, hup, hui⟩
  have : r = u := List.inj_on_of_nodup_map hid hr hu (by rw [hri, hui])
  rw [← hrp, ← hup, this]

theorem memberIdOf_of_mem {rows : List MemberRow}
    (hpid : (rows.map (fun r => r.platformId)).Nodup) {r : MemberRow} (hr : r ∈ rows) :
    memberIdOf rows r.platformId = some r.id := by
  induction rows with
  | nil => cases hr
  | cons h t ih =>
    rcases List.mem_cons.1 hr with rfl | hrt
    · simp [memberIdOf]
    · have hne : ¬(h.platformId == r.platformId) = true := by
        intro hbe
        have heq : h.platformId = r.platformId := by simpa using hbe
        have : r.platformId ∈ t.map (fun r => r.platformId) :=
          List.mem_map.2 ⟨r, hrt, rfl⟩
        rw [← heq] at this
        exact (List.nodup_cons.1 (by simpa using hpid)).1 this
      have := ih (by simpa using (List.nodup_cons.1 (by simpa using hpid)).2) hrt
      simpa [memberIdOf, List.find?, hne] using this

theorem lookupTracker_cons_pos {e : String × TrackerEntry} {t : Tracker} {q : String}
    (h : (e.1 == q) = true) : lookupTracker (e :: t) q = some e.2 := by
  unfold lookupTracker
  rw [List.find?_cons_of_pos (p := fun e => e.1 == q) t h]
  rfl

theorem lookupTracker_cons_neg {e : String × TrackerEntry} {t : Tracker} {q : String}
    (h : ¬(e.1 == q) = true) : lookupTracker (e :: t) q = lookupTracker t q := by
  unfold lookupTracker
  rw [List.find?_cons_of_neg (p := fun e => e.1 == q) t h]

theorem lookupTracker_eq_none {tr : Tracker} {pid : String} :
    lookupTracker tr pid = none ↔ pid ∉ tr.map (fun e => e.1) := by
  unfold lookupTracker
  rw [Option.map_eq_none', List.find?_eq_none]
  constructor
  · intro h hmem
    rcases List.mem_map.1 hmem with ⟨e, he, hfe⟩
    exact h e he (by simp [hfe])
  · intro h e he hbe
    exact h (List.mem_map.2 ⟨e, he, by simpa using hbe⟩)

theorem lookupTracker_append_other {tr : Tracker} {pid q : String} {te : TrackerEntry}
    (h : q ≠ pid) : lookupTracker (tr ++ [(pid, te)]) q = lookupTracker tr q := by
  induction tr with
  | nil =>
    have hne : ¬((pid, te).1 == q) = true := by simp [Ne.symm h]
    rw [List.nil_append, lookupTracker_cons_neg hne]
  | cons e t ih =>
    rw [List.cons_append]
    by_cases he : (e.1 == q) = true
    · rw [lookupTracker_cons_pos he, lookupTracker_cons_pos he]
    · rw [lookupTracker_cons_neg he, lookupTracker_cons_neg he, ih]

theorem lookupTracker_append_self {tr : Tracker} {pid : String} {te : TrackerEntry}
    (h : lookupTracker tr pid = none) :
    lookupTracker (tr ++ [(pid, te)]) pid = some te := by
  induction tr with
  | nil => exact lookupTracker_cons_pos (by simp)
  | cons e t ih =>
    by_cases he : (e.1 == pid) = true
    · rw [lookupTracker_cons_pos he] at h
      cases h
    · rw [lookupTracker_cons_neg he] at h
      rw [List.cons_append, lookupTracker_cons_neg he]
      exact ih h

theorem updateTracker_cons {e : String × TrackerEntry} {t : Tracker} {pid : String}
    {te : TrackerEntry} :
    updateTracker (e :: t) pid te =
      (if (e.1 == pid) = true then (pid, te) else e) :: updateTracker t pid te := rfl

theorem lookupTracker_update_self {tr : Tracker} {pid : String} {te0 te : TrackerEntry}
    (h : lookupTracker tr pid = some te0) :
    lookupTracker (updateTracker tr pid te) pid = some te := by
  induction tr with
  | nil => cases h
  | cons e t ih =>
    rw [updateTracker_cons]
    by_cases he : (e.1 == pid) = true
    · rw [if_pos he]
      exact lookupTracker_cons_pos (by simp)
    · rw [if_neg he, lookupTracker_cons_neg he]
      rw [lookupTracker_cons_neg he] at h
      exact ih h

theorem lookupTracker_update_other {tr : Tracker} {pid q : String} {te : TrackerEntry}
    (h : q ≠ pid) :
    lookupTracker (updateTracker tr pid te) q = lookupTracker tr q := by
  induction tr with
  | nil => rfl
  | cons e t ih =>
    rw [updateTracker_cons]
    by_cases he : (e.1 == pid) = true
    · rw [if_pos he]
      have h1 : ¬((pid, te).1 == q) = true := by simp [Ne.symm h]
      have h2 : ¬(e.1 == q) = true := by
        have : e.1 = pid := by simpa using he
        simp [this, Ne.symm h]
      rw [lookupTracker_cons_neg h1, lookupTracker_cons_neg h2, ih]
    · rw [if_neg he]
      by_cases heq : (e.1 == q) = true
      · rw [lookupTracker_cons_pos heq, lookupTracker_cons_pos heq]
      · rw [lookupTracker_cons_neg heq, lookupTracker_cons_neg heq, ih]

theorem updateTracker_keys {pid : String} {te : TrackerEntry} :
    ∀ tr : Tracker, (updateTracker tr pid te).map (fun e => e.1) = tr.map (fun e => e.1) := by
  intro tr
  induction tr with
  | nil => rfl
  | cons e t ih =>
    rw [updateTracker_cons, List.map_cons, List.map_cons, ih]
    congr 1
    split
    · rename_i h
      exact ((beq_iff_eq.mp h).symm : pid = e.1)
    · rfl

end DB

namespace DB

theorem closeOpenHistory_cons {a : HistoryRow} {t : List HistoryRow} {mid : Nat} {ts : Int} :
    closeOpenHistory (a :: t) mid ts =
      (if (a.memberId == mid && a.endTs.isNone) = true
        then { a with endTs := some ts } else a) :: closeOpenHistory t mid ts := rfl

theorem filter_close_self (hist : List HistoryRow) (mid : Nat) (ts : Int) :
    (closeOpenHistory hist mid ts).filter (fun h => h.memberId == mid) =
      (hist.filter (fun h => h.memberId == mid)).map
        (fun h => if h.endTs.isNone then { h with endTs := some ts } else h) := by
  induction hist with
  | nil => rfl
  | cons a t ih =>
    rw [closeOpenHistory_cons]
    by_cases hm : (a.memberId == mid) = true
    · by_cases he : a.endTs.isNone = true
      · rw [if_pos (by rw [hm, he]; rfl)]
        rw [List.filter_cons_of_pos (p := fun h : HistoryRow => h.memberId == mid) (by simpa using hm),
          List.filter_cons_of_pos (p := fun h : HistoryRow => h.memberId == mid) hm]
        rw [List.map_cons, if_pos he, ih]
      · rw [if_neg (by rw [hm]; simpa using he)]
        rw [List.filter_cons_of_pos (p := fun h : HistoryRow => h.memberId == mid) hm,
          List.filter_cons_of_pos (p := fun h : HistoryRow => h.memberId == mid) hm]
        rw [List.map_cons, if_neg he, ih]
    · rw [if_neg (by rw [Bool.and_eq_true]; intro hc; exact hm hc.1)]
      rw [List.filter_cons_of_neg (p := fun h : HistoryRow => h.memberId == mid) hm,
        List.filter_cons_of_neg (p := fun h : HistoryRow => h.memberId == mid) hm, ih]

theorem filter_close_other (hist : List HistoryRow) {mid mid2 : Nat} (ts : Int)
    (h : mid ≠ mid2) :
    (closeOpenHistory hist mid ts).filter (fun h => h.memberId == mid2) =
      hist.filter (fun h => h.memberId == mid2) := by
  induction hist with
  | nil => rfl
  | cons a t ih =>
    rw [closeOpenHistory_cons]
    by_cases hm : (a.memberId == mid) = true
    · have hm2 : ¬(a.memberId == mid2) = true := by
        have : a.memberId = mid := by simpa using hm
        simp [this, h]
      by_cases he : a.endTs.isNone = true
      · rw [if_pos (by rw [hm, he]; rfl)]
        rw [List.filter_cons_of_neg (p := fun h : HistoryRow => h.memberId == mid2) (by simpa using hm2),
          List.filter_cons_of_neg (p := fun h : HistoryRow => h.memberId == mid2) hm2, ih]
      · rw [if_neg (by rw [hm]; simpa using he)]
        rw [List.filter_cons_of_neg (p := fun h : HistoryRow => h.memberId == mid2) hm2,
          List.filter_cons_of_neg (p := fun h : HistoryRow => h.memberId == mid2) hm2, ih]
    · rw [if_neg (by rw [Bool.and_eq_true]; intro hc; exact hm hc.1)]
      by_cases hm2 : (a.memberId == mid2) = true
      · rw [List.filter_cons_of_pos (p := fun h : HistoryRow => h.memberId == mid2) hm2,
          List.filter_cons_of_pos (p := fun h : HistoryRow => h.memberId == mid2) hm2, ih]
      · rw [List.filter_cons_of_neg (p := fun h : HistoryRow => h.memberId == mid2) hm2,
          List.filter_cons_of_neg (p := fun h : HistoryRow => h.memberId == mid2) hm2, ih]

theorem HistOk_mono : ∀ {h : List HistoryRow} {nm : String} {ls t : Int},
    HistOk h nm ls → ls ≤ t → HistOk h nm t
  | [], _, _, _, hk, _ => hk.elim
  | [_], _, _, _, hk, hle => ⟨hk.1, hk.2.1, le_trans hk.2.2 hle⟩
  | _ :: _ :: _, _, _, _, hk, hle => ⟨hk.1, hk.2.1, HistOk_mono hk.2.2 hle⟩

theorem HistOk_extend {mid : Nat} {nm2 : String} :
    ∀ {h : List HistoryRow} {nm : String} {ls t : Int}, HistOk h nm ls → ls ≤ t →
    HistOk ((h.map (fun r => if r.endTs.isNone then { r with endTs := some t } else r))
      ++ [⟨mid, nm2, t, none⟩]) nm2 t
  | [], _, _, _, hk, _ => hk.elim
  | [a], nm, ls, t, hk, hle => by
    have he : a.endTs.isNone = true := by rw [hk.1]; rfl
    simp only [List.map_cons, List.map_nil, List.nil_append, List.cons_append,
      List.nil_append, if_pos he]
    exact ⟨rfl, le_trans hk.2.2 hle, rfl, rfl, le_refl t⟩
  | a :: b :: rest, nm, ls, t, hk, hle => by
    have ha : a.endTs.isNone = false := by rw [hk.1]; rfl
    have hhead : (if a.endTs.isNone = true then { a with endTs := some t } else a) = a := by
      rw [ha]
      simp
    have tail := @HistOk_extend mid nm2 _ _ _ _ hk.2.2 hle
    have hfs : (if b.endTs.isNone = true then { b with endTs := some t } else b).startTs
        = b.startTs := by
      split <;> rfl
    rw [List.map_cons, List.cons_append, hhead, List.map_cons, List.cons_append]
    rw [List.map_cons, List.cons_append] at tail
    refine ⟨?_, ?_, ?_⟩
    · rw [hfs]
      exact hk.1
    · rw [hfs]
      exact hk.2.1
    · exact tail

theorem HistOk_start_le : ∀ {h : List HistoryRow} {b : HistoryRow} {nm : String} {ls : Int},
    HistOk (b :: h) nm ls → ∀ c ∈ b :: h, b.startTs ≤ c.startTs := by
  intro h
  induction h with
  | nil =>
    intro b nm ls _ c hc
    rcases List.mem_cons.1 hc with rfl | hc
    · exact le_refl _
    · cases hc
  | cons d t ih =>
    intro b nm ls hk c hc
    rcases List.mem_cons.1 hc with rfl | hc
    · exact le_refl _
    · exact le_trans hk.2.1 (ih hk.2.2 c hc)

theorem HistOk_pairwise : ∀ {h : List HistoryRow} {nm : String} {ls : Int},
    HistOk h nm ls →
    h.Pairwise (fun a b => a.startTs ≤ b.startTs ∧ ∃ e, a.endTs = some e ∧ e ≤ b.startTs)
  | [], _, _, hk => hk.elim
  | [_], _, _, _ => List.pairwise_singleton _ _
  | a :: b :: rest, nm, ls, hk => by
    refine List.pairwise_cons.2 ⟨?_, HistOk_pairwise hk.2.2⟩
    intro c hc
    have hbc := HistOk_start_le hk.2.2 c hc
    exact ⟨le_trans hk.2.1 hbc, b.startTs, hk.1, hbc⟩

theorem HistOk_last : ∀ {h : List HistoryRow} {nm : String} {ls : Int},
    HistOk h nm ls → ∃ last, h.getLast? = some last ∧ last.endTs = none ∧ last.name = nm
  | [], _, _, hk => hk.elim
  | [a], _, _, hk => ⟨a, rfl, hk.1, hk.2.1⟩
  | a :: b :: rest, nm, ls, hk => by
    rcases HistOk_last hk.2.2 with ⟨last, hl, he, hn⟩
    exact ⟨last, by rw [List.getLast?_cons_cons]; exact hl, he, hn⟩

theorem HistOk_countOpen : ∀ {h : List HistoryRow} {nm : String} {ls : Int},
    HistOk h nm ls → h.countP (fun r => r.endTs.isNone) = 1
  | [], _, _, hk => hk.elim
  | [a], _, _, hk => by
    have : a.endTs.isNone = true := by rw [hk.1]; rfl
    simp [List.countP_cons, this]
  | a :: b :: rest, nm, ls, hk => by
    have ha : a.endTs.isNone = false := by rw [hk.1]; rfl
    have ih := HistOk_countOpen hk.2.2
    rw [List.countP_cons]
    simpa [ha] using ih

theorem HistOk_chain : ∀ {h : List HistoryRow} {nm : String} {ls : Int},
    HistOk h nm ls → h.Chain' (fun a b => a.endTs = some b.startTs)
  | [], _, _, _ => List.chain'_nil
  | [_], _, _, _ => List.chain'_singleton _
  | _ :: _ :: _, _, _, hk =>
    List.chain'_cons.2 ⟨hk.1, HistOk_chain hk.2.2⟩

theorem lookupTracker_mem {tr : Tracker} {pid : String} {te : TrackerEntry}
    (h : lookupTracker tr pid = some te) : (pid, te) ∈ tr := by
  unfold lookupTracker at h
  rcases Option.map_eq_some'.1 h with ⟨e, he, hee⟩
  have h1 : e.1 = pid := by simpa using List.find?_some he
  have h2 := List.mem_of_find?_eq_some he
  have : e = (pid, te) := by
    cases e
    simp only at h1 hee
    rw [h1, hee]
  rw [← this]
  exact h2

theorem mem_updateTracker {tr : Tracker} {pid : String} {te : TrackerEntry}
    {e : String × TrackerEntry} (h : e ∈ updateTracker tr pid te) :
    e = (pid, te) ∨ e ∈ tr := by
  unfold updateTracker at h
  rcases List.mem_map.1 h with ⟨e0, he0, heq⟩
  by_cases hc : (e0.1 == pid) = true
  · rw [if_pos hc] at heq
    exact Or.inl heq.symm
  · rw [if_neg hc] at heq
    exact Or.inr (heq ▸ he0)

end DB

namespace DB

theorem importData_eq (now : Int) (pr : ParseResult) :
    importData now pr =
      { (importWalk now pr).1 with
        members := applyNameUpdates (importWalk now pr).2 (importWalk now pr).1.members } := rfl

theorem walkStore_cons_unknown {members : List MemberRow} {s : Store} {tr : Tracker}
    {msg : ParsedMessage} {rest : List ParsedMessage}
    (h : memberIdOf members msg.senderPlatformId = none) :
    walkStore members s tr (msg :: rest) = walkStore members s tr rest := by
  simp only [walkStore, h]

theorem walkStore_cons_first {members : List MemberRow} {s : Store} {tr : Tracker}
    {msg : ParsedMessage} {rest : List ParsedMessage} {sid : Nat}
    (hsid : memberIdOf members msg.senderPlatformId = some sid)
    (hlk : lookupTracker tr msg.senderPlatformId = none) :
    walkStore members s tr (msg :: rest) =
      walkStore members
        { s with messages := s.messages ++ [⟨sid, msg.timestamp, msg.type, msg.content⟩]
                 history := s.history ++ [⟨sid, msg.senderName, msg.timestamp, none⟩] }
        (tr ++ [(msg.senderPlatformId, ⟨msg.senderName, msg.timestamp⟩)]) rest := by
  simp only [walkStore, hsid, hlk]

theorem walkStore_cons_rename {members : List MemberRow} {s : Store} {tr : Tracker}
    {msg : ParsedMessage} {rest : List ParsedMessage} {sid : Nat} {te : TrackerEntry}
    (hsid : memberIdOf members msg.senderPlatformId = some sid)
    (hlk : lookupTracker tr msg.senderPlatformId = some te)
    (hne : te.currentName ≠ msg.senderName) :
    walkStore members s tr (msg :: rest) =
      walkStore members
        { s with messages := s.messages ++ [⟨sid, msg.timestamp, msg.type, msg.content⟩]
                 history := closeOpenHistory s.history sid msg.timestamp
                   ++ [⟨sid, msg.senderName, msg.timestamp, none⟩] }
        (updateTracker tr msg.senderPlatformId ⟨msg.senderName, msg.timestamp⟩) rest := by
  simp only [walkStore, hsid, hlk, if_pos hne]

theorem walkStore_cons_same {members : List MemberRow} {s : Store} {tr : Tracker}
    {msg : ParsedMessage} {rest : List ParsedMessage} {sid : Nat} {te : TrackerEntry}
    (hsid : memberIdOf members msg.senderPlatformId = some sid)
    (hlk : lookupTracker tr msg.senderPlatformId = some te)
    (heq : ¬ te.currentName ≠ msg.senderName) :
    walkStore members s tr (msg :: rest) =
      walkStore members
        { s with messages := s.messages ++ [⟨sid, msg.timestamp, msg.type, msg.content⟩] }
        (updateTracker tr msg.senderPlatformId ⟨te.currentName, msg.timestamp⟩) rest := by
  simp only [walkStore, hsid, hlk, if_neg heq]

theorem walkStore_members {members : List MemberRow} :
    ∀ (msgs : List ParsedMessage) (s : Store) (tr : Tracker),
      (walkStore members s tr msgs).1.members = s.members := by
  intro msgs
  induction msgs with
  | nil => intro s tr; rfl
  | cons msg rest ih =>
    intro s tr
    cases hsid : memberIdOf members msg.senderPlatformId with
    | none => rw [walkStore_cons_unknown hsid]; exact ih s tr
    | some sid =>
      cases hlk : lookupTracker tr msg.senderPlatformId with
      | none => rw [walkStore_cons_first hsid hlk]; exact ih _ _
      | some te =>
        by_cases hne : te.currentName ≠ msg.senderName
        · rw [walkStore_cons_rename hsid hlk hne]; exact ih _ _
        · rw [walkStore_cons_same hsid hlk hne]; exact ih _ _

theorem walkStore_meta {members : List MemberRow} :
    ∀ (msgs : List ParsedMessage) (s : Store) (tr : Tracker),
      (walkStore members s tr msgs).1.meta = s.meta := by
  intro msgs
  induction msgs with
  | nil => intro s tr; rfl
  | cons msg rest ih =>
    intro s tr
    cases hsid : memberIdOf members msg.senderPlatformId with
    | none => rw [walkStore_cons_unknown hsid]; exact ih s tr
    | some sid =>
      cases hlk : lookupTracker tr msg.senderPlatformId with
      | none => rw [walkStore_cons_first hsid hlk]; exact ih _ _
      | some te =>
        by_cases hne : te.currentName ≠ msg.senderName
        · rw [walkStore_cons_rename hsid hlk hne]; exact ih _ _
        · rw [walkStore_cons_same hsid hlk hne]; exact ih _ _

theorem walkStore_messages_mono {members : List MemberRow} :
    ∀ (msgs : List ParsedMessage) (s : Store) (tr : Tracker) (r : MessageRow),
      r ∈ s.messages → r ∈ (walkStore members s tr msgs).1.messages := by
  intro msgs
  induction msgs with
  | nil => intro s tr r hr; exact hr
  | cons msg rest ih =>
    intro s tr r hr
    cases hsid : memberIdOf members msg.senderPlatformId with
    | none => rw [walkStore_cons_unknown hsid]; exact ih s tr r hr
    | some sid =>
      cases hlk : lookupTracker tr msg.senderPlatformId with
      | none =>
        rw [walkStore_cons_first hsid hlk]
        exact ih _ _ r (List.mem_append.2 (Or.inl hr))
      | some te =>
        by_cases hne : te.currentName ≠ msg.senderName
        · rw [walkStore_cons_rename hsid hlk hne]
          exact ih _ _ r (List.mem_append.2 (Or.inl hr))
        · rw [walkStore_cons_same hsid hlk hne]
          exact ih _ _ r (List.mem_append.2 (Or.inl hr))

theorem walkStore_msg_mem {members : List MemberRow} :
    ∀ (msgs : List ParsedMessage) (s : Store) (tr : Tracker) (msg : ParsedMessage) (sid : Nat),
      msg ∈ msgs → memberIdOf members msg.senderPlatformId = some sid →
      (⟨sid, msg.timestamp, msg.type, msg.content⟩ : MessageRow)
        ∈ (walkStore members s tr msgs).1.messages := by
  intro msgs
  induction msgs with
  | nil => intro s tr msg sid h; cases h
  | cons hd rest ih =>
    intro s tr msg sid hmem hsid
    rcases List.mem_cons.1 hmem with rfl | hmem
    · cases hlk : lookupTracker tr msg.senderPlatformId with
      | none =>
        rw [walkStore_cons_first hsid hlk]
        exact walkStore_messages_mono _ _ _ _ (List.mem_append.2 (Or.inr (by simp)))
      | some te =>
        by_cases hne : te.currentName ≠ msg.senderName
        · rw [walkStore_cons_rename hsid hlk hne]
          exact walkStore_messages_mono _ _ _ _ (List.mem_append.2 (Or.inr (by simp)))
        · rw [walkStore_cons_same hsid hlk hne]
          exact walkStore_messages_mono _ _ _ _ (List.mem_append.2 (Or.inr (by simp)))
    · cases hsid2 : memberIdOf members hd.senderPlatformId with
      | none => rw [walkStore_cons_unknown hsid2]; exact ih _ _ msg sid hmem hsid
      | some sid2 =>
        cases hlk : lookupTracker tr hd.senderPlatformId with
        | none => rw [walkStore_cons_first hsid2 hlk]; exact ih _ _ msg sid hmem hsid
        | some te =>
          by_cases hne : te.currentName ≠ hd.senderName
          · rw [walkStore_cons_rename hsid2 hlk hne]; exact ih _ _ msg sid hmem hsid
          · rw [walkStore_cons_same hsid2 hlk hne]; exact ih _ _ msg sid hmem hsid

end DB

namespace DB

theorem memberHistory_def (s : Store) (mid : Nat) :
    memberHistory s mid = s.history.filter (fun r => r.memberId == mid) := rfl

theorem memberHistory_mk {mt : Option MetaRow} {mem : List MemberRow} {hist : List HistoryRow}
    {msgs : List MessageRow} {mid : Nat} :
    memberHistory ⟨mt, mem, hist, msgs⟩ mid = hist.filter (fun r => r.memberId == mid) := rfl

theorem filter_append_singleton_ne {hist : List HistoryRow} {row : HistoryRow} {mid : Nat}
    (h : ¬(row.memberId == mid) = true) :
    (hist ++ [row]).filter (fun r => r.memberId == mid) =
      hist.filter (fun r => r.memberId == mid) := by
  rw [List.filter_append]
  rw [List.filter_cons_of_neg (p := fun r : HistoryRow => r.memberId == mid) h]
  simp

theorem filter_append_singleton_eq {hist : List HistoryRow} {row : HistoryRow} {mid : Nat}
    (h : (row.memberId == mid) = true) :
    (hist ++ [row]).filter (fun r => r.memberId == mid) =
      hist.filter (fun r => r.memberId == mid) ++ [row] := by
  rw [List.filter_append]
  rw [List.filter_cons_of_pos (p := fun r : HistoryRow => r.memberId == mid) h]
  rfl

theorem walkStore_inv {members : List MemberRow}
    (hinj : ∀ p q i, memberIdOf members p = some i → memberIdOf members q = some i → p = q) :
    ∀ (msgs : List ParsedMessage) (s : Store) (tr : Tracker),
      msgs.Pairwise (fun a b => a.timestamp ≤ b.timestamp) →
      (∀ e ∈ tr, ∀ m ∈ msgs, e.2.lastSeenTs ≤ m.timestamp) →
      WalkInv members s tr →
      WalkInv members (walkStore members s tr msgs).1 (walkStore members s tr msgs).2 := by
  intro msgs
  induction msgs with
  | nil => intro s tr _ _ inv; exact inv
  | cons msg rest ih =>
    intro s tr hsort hbound inv
    have hsortR := (List.pairwise_cons.1 hsort).2
    have hhead := (List.pairwise_cons.1 hsort).1
    cases hsid : memberIdOf members msg.senderPlatformId with
    | none =>
      rw [walkStore_cons_unknown hsid]
      exact ih s tr hsortR (fun e he m hm => hbound e he m (List.mem_cons_of_mem _ hm)) inv
    | some sid =>
      cases hlk : lookupTracker tr msg.senderPlatformId with
      | none =>
        rw [walkStore_cons_first hsid hlk]
        apply ih _ _ hsortR
        · intro e he m hm
          rcases List.mem_append.1 he with he | he
          · exact hbound e he m (List.mem_cons_of_mem _ hm)
          · have heq : e = (msg.senderPlatformId,
                (⟨msg.senderName, msg.timestamp⟩ : TrackerEntry)) := by simpa using he
            rw [heq]
            exact hhead m hm
        · refine ⟨?_, ?_, ?_⟩
          · rw [List.map_append, List.map_singleton, nodup_concat_iff]
            exact ⟨inv.keysNodup, lookupTracker_eq_none.1 hlk⟩
          · intro pid2 mid2 hm2 hlk2
            have hne : pid2 ≠ msg.senderPlatformId := by
              intro heq
              rw [heq, lookupTracker_append_self hlk] at hlk2
              cases hlk2
            rw [lookupTracker_append_other hne] at hlk2
            have hmidne : mid2 ≠ sid := by
              intro heq
              exact hne (hinj _ _ _ (heq ▸ hm2) hsid)
            have hold := inv.histEmpty pid2 mid2 hm2 hlk2
            rw [memberHistory_def] at hold
            rw [memberHistory_mk, filter_append_singleton_ne (by simpa using Ne.symm hmidne)]
            exact hold
          · intro pid2 mid2 te2 hm2 hlk2
            by_cases hpe : pid2 = msg.senderPlatformId
            · subst hpe
              rw [lookupTracker_append_self hlk] at hlk2
              have hte : te2 = ⟨msg.senderName, msg.timestamp⟩ := by
                cases hlk2
                rfl
              have hmid : mid2 = sid := Option.some.inj (hm2.symm.trans hsid)
              subst hmid
              have hold := inv.histEmpty _ _ hm2 hlk
              rw [memberHistory_def] at hold
              rw [memberHistory_mk, filter_append_singleton_eq (by simp), hold]
              rw [hte, List.nil_append]
              exact ⟨rfl, rfl, le_refl _⟩
            · rw [lookupTracker_append_other hpe] at hlk2
              have hmidne : mid2 ≠ sid := by
                intro heq
                exact hpe (hinj _ _ _ (heq ▸ hm2) hsid)
              have hold := inv.histOk pid2 mid2 te2 hm2 hlk2
              rw [memberHistory_def] at hold
              rw [memberHistory_mk, filter_append_singleton_ne (by simpa using Ne.symm hmidne)]
              exact hold
      | some te =>
        have hmemtr : (msg.senderPlatformId, te) ∈ tr := lookupTracker_mem hlk
        have hlast : te.lastSeenTs ≤ msg.timestamp :=
          hbound _ hmemtr msg (List.mem_cons_self _ _)
        by_cases hne : te.currentName ≠ msg.senderName
        · rw [walkStore_cons_rename hsid hlk hne]
          apply ih _ _ hsortR
          · intro e he m hm
            rcases mem_updateTracker he with rfl | he
            · exact hhead m hm
            · exact hbound e he m (List.mem_cons_of_mem _ hm)
          · refine ⟨?_, ?_, ?_⟩
            · rw [updateTracker_keys]
              exact inv.keysNodup
            · intro pid2 mid2 hm2 hlk2
              have hpe : pid2 ≠ msg.senderPlatformId := by
                intro heq
                rw [heq, lookupTracker_update_self hlk] at hlk2
                cases hlk2
              rw [lookupTracker_update_other hpe] at hlk2
              have hmidne : mid2 ≠ sid := by
                intro heq
                exact hpe (hinj _ _ _ (heq ▸ hm2) hsid)
              have hold := inv.histEmpty pid2 mid2 hm2 hlk2
              rw [memberHistory_def] at hold
              rw [memberHistory_mk, filter_append_singleton_ne (by simpa using Ne.symm hmidne),
                filter_close_other _ _ (Ne.symm hmidne)]
              exact hold
            · intro pid2 mid2 te2 hm2 hlk2
              by_cases hpe : pid2 = msg.senderPlatformId
              · subst hpe
                rw [lookupTracker_update_self hlk] at hlk2
                have hte : te2 = ⟨msg.senderName, msg.timestamp⟩ := by
                  cases hlk2
                  rfl
                have hmid : mid2 = sid := Option.some.inj (hm2.symm.trans hsid)
                subst hmid
                have hold := inv.histOk _ _ te hm2 hlk
                rw [memberHistory_def] at hold
                rw [memberHistory_mk, filter_append_singleton_eq (by simp),
                  filter_close_self]
                rw [hte]
                exact HistOk_extend hold hlast
              · rw [lookupTracker_update_other hpe] at hlk2
                have hmidne : mid2 ≠ sid := by
                  intro heq
                  exact hpe (hinj _ _ _ (heq ▸ hm2) hsid)
                have hold := inv.histOk pid2 mid2 te2 hm2 hlk2
                rw [memberHistory_def] at hold
                rw [memberHistory_mk, filter_append_singleton_ne (by simpa using Ne.symm hmidne),
                  filter_close_other _ _ (Ne.symm hmidne)]
                exact hold
        · rw [walkStore_cons_same hsid hlk hne]
          apply ih _ _ hsortR
          · intro e he m hm
            rcases mem_updateTracker he with rfl | he
            · exact hhead m hm
            · exact hbound e he m (List.mem_cons_of_mem _ hm)
          · refine ⟨?_, ?_, ?_⟩
            · rw [updateTracker_keys]
              exact inv.keysNodup
            · intro pid2 mid2 hm2 hlk2
              have hpe : pid2 ≠ msg.senderPlatformId := by
                intro heq
                rw [heq, lookupTracker_update_self hlk] at hlk2
                cases hlk2
              rw [lookupTracker_update_other hpe] at hlk2
              exact inv.histEmpty pid2 mid2 hm2 hlk2
            · intro pid2 mid2 te2 hm2 hlk2
              by_cases hpe : pid2 = msg.senderPlatformId
              · subst hpe
                rw [lookupTracker_update_self hlk] at hlk2
                have hte : te2 = ⟨te.currentName, msg.timestamp⟩ := by
                  cases hlk2
                  rfl
                have hmid : mid2 = sid := Option.some.inj (hm2.symm.trans hsid)
                subst hmid
                have hold := inv.histOk _ _ te hm2 hlk
                rw [hte]
                exact HistOk_mono hold hlast
              · rw [lookupTracker_update_other hpe] at hlk2
                exact inv.histOk pid2 mid2 te2 hm2 hlk2

end DB

namespace DB

theorem finalNameOf_id {tr : Tracker} {r : MemberRow} : (finalNameOf tr r).id = r.id := by
  unfold finalNameOf
  cases lookupTracker tr r.platformId <;> rfl

theorem finalNameOf_platformId {tr : Tracker} {r : MemberRow} :
    (finalNameOf tr r).platformId = r.platformId := by
  unfold finalNameOf
  cases lookupTracker tr r.platformId <;> rfl

theorem finalNameOf_cons {e : String × TrackerEntry} {t : Tracker}
    (hk : e.1 ∉ t.map (fun x => x.1)) (r : MemberRow) :
    finalNameOf t (updateMemberNameRow e.1 e.2.currentName r) = finalNameOf (e :: t) r := by
  by_cases hpe : (r.platformId == e.1) = true
  · have hre : r.platformId = e.1 := by simpa using hpe
    have hlt : lookupTracker t r.platformId = none :=
      lookupTracker_eq_none.2 (by rw [hre]; exact hk)
    have hlc : lookupTracker (e :: t) r.platformId = some e.2 :=
      lookupTracker_cons_pos (by simp [hre])
    unfold finalNameOf updateMemberNameRow
    rw [if_pos hpe]
    have hp2 : ({ r with name := e.2.currentName } : MemberRow).platformId = r.platformId := rfl
    rw [hp2, hlt, hlc]
  · have hne : ¬(e.1 == r.platformId) = true := by
      intro hc
      exact hpe (by simpa using (beq_iff_eq.1 hc).symm)
    unfold finalNameOf updateMemberNameRow
    rw [if_neg hpe, lookupTracker_cons_neg hne]

theorem applyNameUpdates_cons {e : String × TrackerEntry} {tr : Tracker}
    {rows : List MemberRow} :
    applyNameUpdates (e :: tr) rows =
      applyNameUpdates tr (rows.map (updateMemberNameRow e.1 e.2.currentName)) := rfl

theorem applyNameUpdates_eq_map :
    ∀ {tr : Tracker}, (tr.map (fun e => e.1)).Nodup →
      ∀ rows : List MemberRow, applyNameUpdates tr rows = rows.map (finalNameOf tr) := by
  intro tr
  induction tr with
  | nil =>
    intro _ rows
    show rows = rows.map (finalNameOf [])
    symm
    have h1 : rows.map (finalNameOf []) = rows.map id :=
      List.map_congr_left (fun r _ => rfl)
    rw [h1, List.map_id]
  | cons e t ih =>
    intro hnd rows
    rw [List.map_cons] at hnd
    have hk : e.1 ∉ t.map (fun x => x.1) := (List.nodup_cons.1 hnd).1
    have hndt : (t.map (fun x => x.1)).Nodup := (List.nodup_cons.1 hnd).2
    rw [applyNameUpdates_cons, ih hndt, List.map_map]
    exact List.map_congr_left (fun r _ => finalNameOf_cons hk r)

theorem importData_walkInv (now : Int) (pr : ParseResult) :
    WalkInv (memberRowsOf pr.members) (importWalk now pr).1 (importWalk now pr).2 := by
  have hinj : ∀ p q i, memberIdOf (memberRowsOf pr.members) p = some i →
      memberIdOf (memberRowsOf pr.members) q = some i → p = q :=
    fun _ _ _ hp hq => memberIdOf_inj (memberRowsOf_ids_nodup pr.members) hp hq
  apply walkStore_inv hinj
  · have hs := pairwise_isortBy leTs
      (fun a b h => by
        simp only [leTs, decide_eq_false_iff_not, not_le] at h
        simp only [leTs, decide_eq_true_eq]
        omega)
      (fun a b c h1 h2 => by
        simp only [leTs, decide_eq_true_eq] at h1 h2 ⊢
        omega)
      pr.messages
    exact hs.imp (fun h => by simpa [leTs] using h)
  · intro e he
    cases he
  · refine ⟨by simp, ?_, ?_⟩
    · intro pid mid _ _
      rfl
    · intro pid mid te _ hlk
      cases hlk

theorem importWalk_members (now : Int) (pr : ParseResult) :
    (importWalk now pr).1.members = memberRowsOf pr.members :=
  walkStore_members _ _ _

theorem importData_members_eq (now : Int) (pr : ParseResult) :
    (importData now pr).members =
      (memberRowsOf pr.members).map (finalNameOf (importWalk now pr).2) := by
  rw [importData_eq]
  show applyNameUpdates (importWalk now pr).2 (importWalk now pr).1.members = _
  rw [importWalk_members, applyNameUpdates_eq_map (importData_walkInv now pr).keysNodup]

theorem importData_memberHistory (now : Int) (pr : ParseResult) (mid : Nat) :
    memberHistory (importData now pr) mid = memberHistory (importWalk now pr).1 mid := rfl

end DB

namespace DB

theorem importData_member_case (now : Int) (pr : ParseResult) {m : MemberRow}
    (hm : m ∈ (importData now pr).members) :
    ∃ r0 ∈ memberRowsOf pr.members, m = finalNameOf (importWalk now pr).2 r0 ∧
      m.id = r0.id ∧ m.platformId = r0.platformId := by
  rw [importData_members_eq] at hm
  rcases List.mem_map.1 hm with ⟨r0, hr0, heq⟩
  refine ⟨r0, hr0, heq.symm, ?_, ?_⟩
  · rw [← heq]
    exact finalNameOf_id
  · rw [← heq]
    exact finalNameOf_platformId

theorem importData_nickname_invariant (now : Int) (pr : ParseResult) :
    ∀ m ∈ (importData now pr).members,
      memberHistory (importData now pr) m.id ≠ [] →
      NicknameInvariant (importData now pr) m.id := by
  intro m hm hne
  obtain ⟨r0, hr0, hmf, hmid, hmpid⟩ := importData_member_case now pr hm
  have hwalk := importData_walkInv now pr
  have hpidlook : memberIdOf (memberRowsOf pr.members) r0.platformId = some r0.id :=
    memberIdOf_of_mem (memberRowsOf_pids_nodup pr.members) hr0
  rw [hmid] at hne ⊢
  cases hlk : lookupTracker (importWalk now pr).2 r0.platformId with
  | none =>
    exact absurd
      ((importData_memberHistory now pr r0.id).trans (hwalk.histEmpty _ _ hpidlook hlk)) hne
  | some te =>
    have hold := hwalk.histOk _ _ te hpidlook hlk
    refine ⟨HistOk_pairwise hold, HistOk_countOpen hold, ?_⟩
    obtain ⟨last, hl, hlend, hlname⟩ := HistOk_last hold
    refine ⟨last, hl, hlend, ?_⟩
    intro mm hmm hmmid
    obtain ⟨r1, hr1, hmf1, hmid1, _⟩ := importData_member_case now pr hmm
    have hr10 : r1 = r0 := by
      apply List.inj_on_of_nodup_map (memberRowsOf_ids_nodup pr.members) hr1 hr0
      rw [← hmid1, hmmid]
    subst hr10
    rw [hmf1]
    show (finalNameOf (importWalk now pr).2 r1).name = last.name
    unfold finalNameOf
    rw [hlk]
    exact hlname.symm

theorem importData_history_chain (now : Int) (pr : ParseResult) :
    ∀ m ∈ (importData now pr).members,
      (memberHistory (importData now pr) m.id).Chain'
        (fun a b => a.endTs = some b.startTs) := by
  intro m hm
  obtain ⟨r0, hr0, _, hmid, _⟩ := importData_member_case now pr hm
  have hwalk := importData_walkInv now pr
  have hpidlook : memberIdOf (memberRowsOf pr.members) r0.platformId = some r0.id :=
    memberIdOf_of_mem (memberRowsOf_pids_nodup pr.members) hr0
  rw [hmid]
  cases hlk : lookupTracker (importWalk now pr).2 r0.platformId with
  | none =>
    rw [(importData_memberHistory now pr r0.id).trans (hwalk.histEmpty _ _ hpidlook hlk)]
    exact List.chain'_nil
  | some te => exact HistOk_chain (hwalk.histOk _ _ te hpidlook hlk)

end DB

namespace DB

theorem sortMessages_sorted (l : List ParsedMessage) :
    (sortMessages l).Pairwise (fun a b => a.timestamp ≤ b.timestamp) := by
  have hs := pairwise_isortBy leTs
    (fun a b h => by
      simp only [leTs, decide_eq_false_iff_not, not_le] at h
      simp only [leTs, decide_eq_true_eq]
      omega)
    (fun a b c h1 h2 => by
      simp only [leTs, decide_eq_true_eq] at h1 h2 ⊢
      omega)
    l
  exact hs.imp (fun h => by simpa [leTs] using h)

theorem sortMessages_perm (l : List ParsedMessage) : (sortMessages l).Perm l :=
  perm_isortBy leTs l

theorem sortMessages_eq_of_perm {l1 l2 : List ParsedMessage} (hp : l1.Perm l2)
    (hnd : (l1.map (fun m => m.timestamp)).Nodup) :
    sortMessages l1 = sortMessages l2 := by
  apply eq_of_perm_of_sorted_of_nodup_key (fun m : ParsedMessage => m.timestamp)
  · exact (sortMessages_perm l1).trans (hp.trans (sortMessages_perm l2).symm)
  · exact sortMessages_sorted l1
  · exact sortMessages_sorted l2
  · exact (((sortMessages_perm l1).map (fun m => m.timestamp)).nodup_iff).2 hnd

theorem importData_perm_eq {now : Int} {pm : ParseMeta} {mems : List ParsedMember}
    {msgs1 msgs2 : List ParsedMessage} (hp : msgs1.Perm msgs2)
    (hnd : (msgs1.map (fun m => m.timestamp)).Nodup) :
    importData now ⟨pm, mems, msgs1⟩ = importData now ⟨pm, mems, msgs2⟩ := by
  have hs : sortMessages msgs1 = sortMessages msgs2 := sortMessages_eq_of_perm hp hnd
  unfold importData
  dsimp only
  rw [hs]

theorem foldl_applyTxnOp_memberOps :
    ∀ (l : List ParsedMember) (s : Store),
      (l.map (fun q => TxnOp.insertMemberIgnore q.platformId q.name)).foldl applyTxnOp s =
        { s with members := l.foldl insertMemberRow s.members } := by
  intro l
  induction l with
  | nil => intro s; rfl
  | cons q rest ih =>
    intro s
    rw [List.map_cons, List.foldl_cons]
    have hstep : applyTxnOp s (TxnOp.insertMemberIgnore q.platformId q.name) =
        { s with members := insertMemberRow s.members q } := by
      simp only [applyTxnOp, insertMemberRow]
      split
      · rfl
      · rfl
    rw [hstep, ih]
    rfl

theorem foldl_applyTxnOp_nameOps :
    ∀ (tr : Tracker) (s : Store),
      (tr.map (fun e => TxnOp.updateMemberName e.2.currentName e.1)).foldl applyTxnOp s =
        { s with members := applyNameUpdates tr s.members } := by
  intro tr
  induction tr with
  | nil => intro s; rfl
  | cons e t ih =>
    intro s
    rw [List.map_cons, List.foldl_cons]
    have hstep : applyTxnOp s (TxnOp.updateMemberName e.2.currentName e.1) =
        { s with members := s.members.map (updateMemberNameRow e.1 e.2.currentName) } := rfl
    rw [hstep, ih]
    rfl

theorem walkOps_eq_walkStore {members : List MemberRow} :
    ∀ (msgs : List ParsedMessage) (tr : Tracker) (s : Store),
      ((walkOps members tr msgs).1.foldl applyTxnOp s = (walkStore members s tr msgs).1) ∧
      ((walkOps members tr msgs).2 = (walkStore members s tr msgs).2) := by
  intro msgs
  induction msgs with
  | nil => intro tr s; exact ⟨rfl, rfl⟩
  | cons msg rest ih =>
    intro tr s
    cases hsid : memberIdOf members msg.senderPlatformId with
    | none =>
      rw [walkStore_cons_unknown hsid]
      simp only [walkOps, hsid]
      exact ih tr s
    | some sid =>
      cases hlk : lookupTracker tr msg.senderPlatformId with
      | none =>
        rw [walkStore_cons_first hsid hlk]
        simp only [walkOps, hsid, hlk]
        exact ⟨by rw [List.foldl_cons, List.foldl_cons]; exact (ih _ _).1, (ih _ _).2⟩
      | some te =>
        by_cases hne : te.currentName ≠ msg.senderName
        · rw [walkStore_cons_rename hsid hlk hne]
          simp only [walkOps, hsid, hlk, if_pos hne]
          exact ⟨by rw [List.foldl_cons, List.foldl_cons, List.foldl_cons]; exact (ih _ _).1,
            (ih _ _).2⟩
        · rw [walkStore_cons_same hsid hlk hne]
          simp only [walkOps, hsid, hlk, if_neg hne]
          exact ⟨by rw [List.foldl_cons]; exact (ih _ _).1, (ih _ _).2⟩

theorem importTxnOps_foldl (now : Int) (pr : ParseResult) :
    (importTxnOps now pr).foldl applyTxnOp emptyStore = importData now pr := by
  unfold importTxnOps
  dsimp only
  rw [List.foldl_append, List.foldl_append, List.foldl_cons]
  rw [foldl_applyTxnOp_memberOps]
  have hbase : ({ applyTxnOp emptyStore
      (TxnOp.insertMeta pr.meta.name pr.meta.platform pr.meta.type now) with
      members := pr.members.foldl insertMemberRow
        (applyTxnOp emptyStore
          (TxnOp.insertMeta pr.meta.name pr.meta.platform pr.meta.type now)).members }
      : Store) = importBase now pr := rfl
  rw [hbase]
  rw [(walkOps_eq_walkStore (sortMessages pr.messages) [] (importBase now pr)).1]
  rw [(walkOps_eq_walkStore (sortMessages pr.messages) [] (importBase now pr)).2]
  rw [foldl_applyTxnOp_nameOps]
  rfl

end DB

theorem round_le_of_le {x y : ℚ} (h : x ≤ y) : round x ≤ round y := by
  rw [round_eq, round_eq]
  exact Int.floor_mono (by linarith)

theorem beq_symm_nat (a b : Nat) : (a == b) = (b == a) := by
  by_cases h : a = b
  · rw [h]
  · have h1 : (a == b) = false := by simpa using h
    have h2 : (b == a) = false := by simpa using Ne.symm h
    rw [h1, h2]

theorem sum_map_add {α : Type} (f g : α → Nat) :
    ∀ l : List α, (l.map (fun x => f x + g x)).sum = (l.map f).sum + (l.map g).sum := by
  intro l
  induction l with
  | nil => rfl
  | cons a t ih =>
    simp only [List.map_cons, List.sum_cons, ih]
    omega

theorem sum_map_indicator {α : Type} (p : α → Bool) :
    ∀ l : List α, (l.map (fun x => if p x = true then 1 else 0)).sum = l.countP p := by
  intro l
  induction l with
  | nil => rfl
  | cons a t ih =>
    rw [List.map_cons, List.sum_cons, ih, List.countP_cons]
    omega

namespace DB

theorem mem_foldl_insertMemberRow {l : List ParsedMember} :
    ∀ {rows : List MemberRow} {r : MemberRow}, r ∈ rows → r ∈ l.foldl insertMemberRow rows := by
  induction l with
  | nil => intro rows r hr; exact hr
  | cons q rest ih =>
    intro rows r hr
    apply ih
    unfold insertMemberRow
    split
    · exact hr
    · exact List.mem_append.2 (Or.inl hr)

theorem exists_pid_memberRows {l : List ParsedMember} :
    ∀ {rows : List MemberRow} {q : ParsedMember}, q ∈ l →
      ∃ r ∈ l.foldl insertMemberRow rows, r.platformId = q.platformId := by
  induction l with
  | nil => intro rows q hq; cases hq
  | cons q0 rest ih =>
    intro rows q hq
    rw [List.foldl_cons]
    rcases List.mem_cons.1 hq with rfl | hq
    · by_cases hany : rows.any (fun r => r.platformId == q.platformId) = true
      · rcases List.any_eq_true.1 hany with ⟨r, hr, hbeq⟩
        have hr2 : r ∈ insertMemberRow rows q := by
          unfold insertMemberRow
          rw [if_pos hany]
          exact hr
        exact ⟨r, mem_foldl_insertMemberRow (l := rest) hr2, by simpa using hbeq⟩
      · have hmem : (⟨rows.length + 1, q.platformId, q.name⟩ : MemberRow)
            ∈ insertMemberRow rows q := by
          unfold insertMemberRow
          rw [if_neg hany]
          exact List.mem_append.2 (Or.inr (by simp))
        exact ⟨⟨rows.length + 1, q.platformId, q.name⟩,
          mem_foldl_insertMemberRow (l := rest) hmem, rfl⟩
    · exact ih hq

theorem importData_member_present (now : Int) (pr : ParseResult) {q : ParsedMember}
    (hq : q ∈ pr.members) :
    ∃ r ∈ (importData now pr).members, r.platformId = q.platformId := by
  rcases @exists_pid_memberRows pr.members [] q hq with ⟨r0, hr0, hpid⟩
  rw [importData_members_eq]
  refine ⟨finalNameOf (importWalk now pr).2 r0, List.mem_map.2 ⟨r0, hr0, rfl⟩, ?_⟩
  rw [finalNameOf_platformId, hpid]

theorem importData_msg_mem (now : Int) (pr : ParseResult) {msg : ParsedMessage} {sid : Nat}
    (hmem : msg ∈ pr.messages)
    (hsid : memberIdOf (memberRowsOf pr.members) msg.senderPlatformId = some sid) :
    (⟨sid, msg.timestamp, msg.type, msg.content⟩ : MessageRow)
      ∈ (importData now pr).messages := by
  have hs : msg ∈ sortMessages pr.messages := (sortMessages_perm pr.messages).mem_iff.2 hmem
  exact walkStore_msg_mem _ _ _ _ _ hs hsid

theorem countP_members_id {L : List MemberRow} (hnd : (L.map (fun r => r.id)).Nodup)
    (sid : Nat) :
    (L.filter (fun m => m.name != systemName)).countP (fun m => m.id == sid) =
      (match L.find? (fun m => m.id == sid) with
      | some m => if (m.name != systemName) = true then 1 else 0
      | none => 0) := by
  induction L with
  | nil => rfl
  | cons a t ih =>
    rw [List.map_cons] at hnd
    have hnd2 := List.nodup_cons.1 hnd
    by_cases hid : (a.id == sid) = true
    · rw [List.find?_cons_of_pos (p := fun m : MemberRow => m.id == sid) t hid]
      have hzero : (t.filter (fun m => m.name != systemName)).countP
          (fun m => m.id == sid) = 0 := by
        rw [List.countP_eq_zero]
        intro m hm hc
        have hmt : m ∈ t := List.mem_of_mem_filter hm
        have hmids : m.id = sid := by simpa using hc
        have haid : a.id = sid := by simpa using hid
        exact hnd2.1 (List.mem_map.2 ⟨m, hmt, by rw [hmids, haid]⟩)
      by_cases hsys : (a.name != systemName) = true
      · rw [List.filter_cons_of_pos (p := fun m : MemberRow => m.name != systemName) hsys]
        rw [List.countP_cons, hzero, if_pos hid]
        dsimp only
        rw [if_pos hsys]
      · rw [List.filter_cons_of_neg (p := fun m : MemberRow => m.name != systemName) hsys]
        rw [hzero]
        dsimp only
        rw [if_neg hsys]
    · rw [List.find?_cons_of_neg (p := fun m : MemberRow => m.id == sid) t hid]
      by_cases hsys : (a.name != systemName) = true
      · rw [List.filter_cons_of_pos (p := fun m : MemberRow => m.name != systemName) hsys]
        rw [List.countP_cons, if_neg hid, ih hnd2.2]
        omega
      · rw [List.filter_cons_of_neg (p := fun m : MemberRow => m.name != systemName) hsys]
        exact ih hnd2.2

theorem sum_member_counts {L : List MemberRow} (hnd : (L.map (fun r => r.id)).Nodup)
    (f : TimeFilter) :
    ∀ msgs : List MessageRow,
      ((L.filter (fun m => m.name != systemName)).map
        (fun m => (msgs.filter (fun g => g.senderId == m.id && inTimeFilter f g.ts)).length)).sum
      =
      (msgs.filter (fun g => inTimeFilter f g.ts &&
        match L.find? (fun m => m.id == g.senderId) with
        | some m => m.name != systemName
        | none => false)).length := by
  intro msgs
  induction msgs with
  | nil => simp
  | cons g rest ih =>
    have hmemce : ∀ m : MemberRow,
        ((g :: rest).filter (fun x => x.senderId == m.id && inTimeFilter f x.ts)).length =
          (if (g.senderId == m.id && inTimeFilter f g.ts) = true then 1 else 0) +
            ((rest.filter (fun x => x.senderId == m.id && inTimeFilter f x.ts)).length) := by
      intro m
      by_cases hc : (g.senderId == m.id && inTimeFilter f g.ts) = true
      · rw [List.filter_cons_of_pos
            (p := fun x : MessageRow => x.senderId == m.id && inTimeFilter f x.ts) hc,
          if_pos hc, List.length_cons]
        omega
      · rw [List.filter_cons_of_neg
            (p := fun x : MessageRow => x.senderId == m.id && inTimeFilter f x.ts) hc,
          if_neg hc]
        omega
    rw [List.map_congr_left (fun m _ => hmemce m), sum_map_add, ih]
    by_cases hg : inTimeFilter f g.ts = true
    · have hind : ∀ m : MemberRow,
          (if (g.senderId == m.id && inTimeFilter f g.ts) = true then 1 else 0) =
            (if (m.id == g.senderId) = true then 1 else 0) := by
        intro m
        rw [hg, Bool.and_true, beq_symm_nat]
      rw [List.map_congr_left (fun m _ => hind m), sum_map_indicator, countP_members_id hnd]
      by_cases hhead : (inTimeFilter f g.ts &&
          match L.find? (fun m => m.id == g.senderId) with
          | some m => m.name != systemName
          | none => false) = true
      · rw [List.filter_cons_of_pos (p := fun g : MessageRow => inTimeFilter f g.ts &&
            match L.find? (fun m => m.id == g.senderId) with
            | some m => m.name != systemName
            | none => false) hhead, List.length_cons]
        rw [hg, Bool.true_and] at hhead
        cases hfind : L.find? (fun m => m.id == g.senderId) with
        | none => rw [hfind] at hhead; cases hhead
        | some m =>
          rw [hfind] at hhead
          dsimp only
          rw [if_pos hhead]
          omega
      · rw [List.filter_cons_of_neg (p := fun g : MessageRow => inTimeFilter f g.ts &&
            match L.find? (fun m => m.id == g.senderId) with
            | some m => m.name != systemName
            | none => false) hhead]
        rw [hg, Bool.true_and] at hhead
        cases hfind : L.find? (fun m => m.id == g.senderId) with
        | none =>
          dsimp only
          omega
        | some m =>
          rw [hfind] at hhead
          dsimp only
          rw [if_neg hhead]
          omega
    · have hgf : inTimeFilter f g.ts = false := by
        cases hv : inTimeFilter f g.ts
        · rfl
        · exact absurd hv hg
      have hind : ∀ m : MemberRow,
          (if (g.senderId == m.id && inTimeFilter f g.ts) = true then 1 else 0) = 0 := by
        intro m
        rw [hgf, Bool.and_false]
        rfl
      rw [List.map_congr_left (fun m _ => hind m)]
      have hz : ∀ L2 : List MemberRow, ((L2.map (fun _ => (0 : Nat))).sum) = 0 := by
        intro L2
        induction L2 with
        | nil => rfl
        | cons b t ihz => simp [ihz]
      rw [hz]
      rw [List.filter_cons_of_neg (p := fun g : MessageRow => inTimeFilter f g.ts &&
        match L.find? (fun m => m.id == g.senderId) with
        | some m => m.name != systemName
        | none => false) (by dsimp only; rw [hgf]; simp)]
      omega

end DB

namespace DB

theorem getMemberActivity_mem {s : Store} {f : TimeFilter} {r : MemberActivity}
    (hr : r ∈ getMemberActivity s f) :
    (∃ m ∈ s.members, (m.name != systemName) = true ∧
      r = { memberId := m.id, platformId := m.platformId, name := m.name
            messageCount := memberMsgCount s f m.id
            percentage := activityPercentage (memberMsgCount s f m.id) (totalMessages s f) })
    ∧ 0 < r.messageCount := by
  simp only [getMemberActivity] at hr
  rw [mem_isortBy] at hr
  have h2 := List.mem_filter.1 hr
  rcases List.mem_map.1 h2.1 with ⟨m, hm, heq⟩
  have hmem := List.mem_filter.1 hm
  exact ⟨⟨m, hmem.1, hmem.2, heq.symm⟩, by simpa using h2.2⟩

theorem sum_filter_pos_counts :
    ∀ l : List MemberActivity,
      ((l.filter (fun r => decide (0 < r.messageCount))).map (fun r => r.messageCount)).sum =
        (l.map (fun r => r.messageCount)).sum := by
  intro l
  induction l with
  | nil => rfl
  | cons a t ih =>
    by_cases hc : (decide (0 < a.messageCount)) = true
    · rw [List.filter_cons_of_pos (p := fun r : MemberActivity => decide (0 < r.messageCount)) hc,
        List.map_cons, List.map_cons, List.sum_cons, List.sum_cons, ih]
    · rw [List.filter_cons_of_neg (p := fun r : MemberActivity => decide (0 < r.messageCount)) hc,
        List.map_cons, List.sum_cons, ih]
      have : a.messageCount = 0 := by simpa using hc
      omega

theorem getMemberActivity_sum (s : Store) (f : TimeFilter)
    (hnd : (s.members.map (fun r => r.id)).Nodup) :
    ((getMemberActivity s f).map (fun r => r.messageCount)).sum = totalMessages s f := by
  simp only [getMemberActivity]
  rw [((perm_isortBy _ _).map (fun r : MemberActivity => r.messageCount)).sum_eq]
  rw [sum_filter_pos_counts, List.map_map]
  exact sum_member_counts hnd f s.messages

theorem getMemberActivity_sorted (s : Store) (f : TimeFilter) :
    (getMemberActivity s f).Pairwise (fun a b => b.messageCount ≤ a.messageCount) := by
  simp only [getMemberActivity]
  exact (pairwise_isortBy
    (fun a b : MemberActivity => decide (b.messageCount ≤ a.messageCount))
    (fun a b h => by
      simp only [decide_eq_false_iff_not, not_le] at h
      simp only [decide_eq_true_eq]
      omega)
    (fun a b c h1 h2 => by
      simp only [decide_eq_true_eq] at h1 h2 ⊢
      omega)
    _).imp (fun h => by simpa using h)

theorem activityPercentage_bounds {c T : Nat} (hc : c ≤ T) :
    0 ≤ activityPercentage c T ∧ activityPercentage c T ≤ 100 := by
  unfold activityPercentage
  split
  · rename_i hT
    have hT0 : (0 : ℚ) < (T : ℚ) := by exact_mod_cast hT
    have hq0 : (0 : ℚ) ≤ (c : ℚ) / (T : ℚ) * 10000 := by positivity
    have hq1 : (c : ℚ) / (T : ℚ) * 10000 ≤ 10000 := by
      have h1 : (c : ℚ) / (T : ℚ) ≤ 1 := (div_le_one hT0).2 (by exact_mod_cast hc)
      nlinarith
    have hr0 : (0 : ℤ) ≤ round ((c : ℚ) / (T : ℚ) * 10000) := by
      have h := round_le_of_le hq0
      rwa [round_zero] at h
    have hr1 : round ((c : ℚ) / (T : ℚ) * 10000) ≤ 10000 := by
      have h := round_le_of_le hq1
      rwa [show round ((10000 : ℚ)) = 10000 by
        exact_mod_cast round_natCast (α := ℚ) 10000] at h
    constructor
    · exact div_nonneg (by exact_mod_cast hr0) (by norm_num)
    · rw [div_le_iff₀ (by norm_num : (0 : ℚ) < 100)]
      calc ((round ((c : ℚ) / (T : ℚ) * 10000) : ℤ) : ℚ) ≤ 10000 := by exact_mod_cast hr1
        _ = 100 * 100 := by norm_num
  · exact ⟨le_refl 0, by norm_num⟩

theorem tryUnlink_spec {fs : FsState} {p : String} (h : p ∉ fs.failing) :
    tryUnlinkIfExists fs p = some ⟨fs.files.erase p, fs.failing⟩ := by
  unfold tryUnlinkIfExists unlinkSync
  by_cases hp : p ∈ fs.files
  · rw [if_pos hp, if_neg h]
  · rw [if_neg hp, List.erase_of_not_mem hp]

theorem deleteSession_ok {fs : FsState} {sid : String} (h : fs.failing = []) :
    deleteSession fs sid =
      (true, ⟨((fs.files.erase (dbPath sid)).erase (dbPath sid ++ "-wal")).erase
        (dbPath sid ++ "-shm"), fs.failing⟩) := by
  unfold deleteSession
  dsimp only
  rw [tryUnlink_spec (by rw [h]; exact List.not_mem_nil _)]
  dsimp only
  rw [tryUnlink_spec (p := dbPath sid ++ "-wal") (by rw [h]; exact List.not_mem_nil _)]
  dsimp only
  rw [tryUnlink_spec (p := dbPath sid ++ "-shm") (by rw [h]; exact List.not_mem_nil _)]

end DB

namespace AIQ

theorem contentNonEmpty_iff {c : Option String} :
    contentNonEmpty c = true ↔ ∃ str, c = some str ∧ str ≠ "" := by
  cases c <;> simp [contentNonEmpty]

theorem recentMatching_mem {s : Store} {f : TimeFilter} {r : SearchMessageResult}
    (hr : r ∈ recentMatching s f) :
    ∃ msg ∈ s.messages, ∃ m ∈ s.members, m.id = msg.senderId ∧
      inTimeFilter f msg.ts = true ∧ isSystemSender m = false ∧ msg.type = 0 ∧
      (∃ str, msg.content = some str ∧ str ≠ "") ∧ r = mkResult msg m := by
  unfold recentMatching at hr
  rcases List.mem_filterMap.1 hr with ⟨msg, hmsg, hf⟩
  cases hso : senderOf s msg with
  | none => rw [hso] at hf; cases hf
  | some m =>
    rw [hso] at hf
    dsimp only at hf
    by_cases hc : (inTimeFilter f msg.ts && !isSystemSender m && msg.type == 0
        && contentNonEmpty msg.content) = true
    · rw [if_pos hc] at hf
      have hm : m ∈ s.members := List.mem_of_find?_eq_some hso
      have hmid : m.id = msg.senderId := by simpa using List.find?_some hso
      simp only [Bool.and_eq_true] at hc
      refine ⟨msg, hmsg, m, hm, hmid, hc.1.1.1, ?_, ?_, ?_, ?_⟩
      · have := hc.1.1.2
        simpa using this
      · have := hc.1.2
        simpa using this
      · exact contentNonEmpty_iff.1 hc.2
      · exact (Option.some.inj hf).symm
    · rw [if_neg hc] at hf
      cases hf

theorem mem_insertNew {l : List Nat} {x y : Nat} : y ∈ insertNew l x ↔ y ∈ l ∨ y = x := by
  unfold insertNew
  split
  · rename_i hx
    constructor
    · exact Or.inl
    · rintro (h | rfl)
      · exact h
      · exact hx
  · simp [List.mem_append]

theorem nodup_insertNew {l : List Nat} {x : Nat} (h : l.Nodup) : (insertNew l x).Nodup := by
  unfold insertNew
  split
  · exact h
  · rename_i hx
    exact nodup_concat_iff.2 ⟨h, hx⟩

theorem length_insertNew_le {l : List Nat} {x : Nat} :
    (insertNew l x).length ≤ l.length + 1 := by
  unfold insertNew
  split
  · omega
  · simp

theorem mem_foldl_insertNew {l : List Nat} :
    ∀ {acc : List Nat} {y : Nat}, y ∈ l.foldl insertNew acc ↔ y ∈ acc ∨ y ∈ l := by
  induction l with
  | nil => intro acc y; simp
  | cons a t ih =>
    intro acc y
    rw [List.foldl_cons, ih, mem_insertNew]
    constructor
    · rintro ((h | rfl) | h)
      · exact Or.inl h
      · exact Or.inr (List.mem_cons_self _ _)
      · exact Or.inr (List.mem_cons_of_mem _ h)
    · rintro (h | h)
      · exact Or.inl (Or.inl h)
      · rcases List.mem_cons.1 h with rfl | h
        · exact Or.inl (Or.inr rfl)
        · exact Or.inr h

theorem nodup_foldl_insertNew {l : List Nat} :
    ∀ {acc : List Nat}, acc.Nodup → (l.foldl insertNew acc).Nodup := by
  induction l with
  | nil => intro acc h; exact h
  | cons a t ih =>
    intro acc h
    rw [List.foldl_cons]
    exact ih (nodup_insertNew h)

theorem length_foldl_insertNew_le {l : List Nat} :
    ∀ acc : List Nat, (l.foldl insertNew acc).length ≤ acc.length + l.length := by
  induction l with
  | nil => intro acc; simp
  | cons a t ih =>
    intro acc
    rw [List.foldl_cons]
    have h1 := ih (insertNew acc a)
    have h2 := length_insertNew_le (l := acc) (x := a)
    simp only [List.length_cons]
    omega

theorem mem_contextIds_single {s : Store} {x : Nat} {k : Nat} {y : Nat} :
    y ∈ contextIds s [x] k ↔ y = x ∨ y ∈ beforeIds s x k ∨ y ∈ afterIds s x k := by
  unfold contextIds
  rw [List.foldl_cons, List.foldl_nil, mem_foldl_insertNew, mem_foldl_insertNew, mem_insertNew]
  simp only [List.mem_nil_iff, false_or]
  tauto

theorem contextIds_single_nodup {s : Store} {x : Nat} {k : Nat} :
    (contextIds s [x] k).Nodup := by
  unfold contextIds
  rw [List.foldl_cons, List.foldl_nil]
  exact nodup_foldl_insertNew (nodup_foldl_insertNew (nodup_insertNew List.nodup_nil))

theorem contextIds_single_len {s : Store} {x : Nat} {k : Nat} :
    (contextIds s [x] k).length ≤ 2 * k + 1 := by
  unfold contextIds
  rw [List.foldl_cons, List.foldl_nil]
  have h1 := length_foldl_insertNew_le (l := afterIds s x k)
    ((beforeIds s x k).foldl insertNew (insertNew [] x))
  have h2 := length_foldl_insertNew_le (l := beforeIds s x k) (insertNew [] x)
  have h3 : (insertNew [] x).length = 1 := rfl
  have h4 : (beforeIds s x k).length ≤ k := by
    unfold beforeIds
    exact List.length_take_le _ _
  have h5 : (afterIds s x k).length ≤ k := by
    unfold afterIds
    exact List.length_take_le _ _
  omega

theorem beforeIds_lt {s : Store} {x k y : Nat} (hy : y ∈ beforeIds s x k) :
    y < x ∧ y ∈ messageIds s := by
  have h1 : y ∈ isortBy (fun a b => decide (b ≤ a))
      ((messageIds s).filter (fun z => decide (z < x))) :=
    (List.take_sublist k _).subset hy
  rw [mem_isortBy] at h1
  have h2 := List.mem_filter.1 h1
  exact ⟨by simpa using h2.2, h2.1⟩

theorem afterIds_gt {s : Store} {x k y : Nat} (hy : y ∈ afterIds s x k) :
    x < y ∧ y ∈ messageIds s := by
  have h1 : y ∈ isortBy (fun a b => decide (a ≤ b))
      ((messageIds s).filter (fun z => decide (x < z))) :=
    (List.take_sublist k _).subset hy
  rw [mem_isortBy] at h1
  have h2 := List.mem_filter.1 h1
  exact ⟨by simpa using h2.2, h2.1⟩

theorem beforeIds_closed {s : Store} {x k : Nat} {u v : Nat} (hu : u ∈ beforeIds s x k)
    (hv : v ∈ messageIds s) (hvx : v < x) (huv : u ≤ v) : v ∈ beforeIds s x k := by
  have hvL : v ∈ isortBy (fun a b => decide (b ≤ a))
      ((messageIds s).filter (fun z => decide (z < x))) := by
    rw [mem_isortBy]
    exact List.mem_filter.2 ⟨hv, by simpa using hvx⟩
  have hsorted : (isortBy (fun a b => decide (b ≤ a))
      ((messageIds s).filter (fun z => decide (z < x)))).Pairwise
      (fun a b => decide (b ≤ a) = true) :=
    pairwise_isortBy (fun a b => decide (b ≤ a))
      (fun a b h => by
        simp only [decide_eq_false_iff_not, not_le] at h
        simp only [decide_eq_true_eq]
        omega)
      (fun a b c h1 h2 => by
        simp only [decide_eq_true_eq] at h1 h2 ⊢
        omega)
      _
  rw [← List.take_append_drop k (isortBy (fun a b => decide (b ≤ a))
    ((messageIds s).filter (fun z => decide (z < x))))] at hvL
  rcases List.mem_append.1 hvL with hvt | hvd
  · exact hvt
  · have hpair := List.pairwise_append.1 (by
      rwa [← List.take_append_drop k (isortBy (fun a b => decide (b ≤ a))
        ((messageIds s).filter (fun z => decide (z < x))))] at hsorted)
    have hvu : v ≤ u := by
      have := hpair.2.2 u hu v hvd
      simpa using this
    have : u = v := le_antisymm huv hvu
    rw [← this]
    exact hu

theorem afterIds_closed {s : Store} {x k : Nat} {u v : Nat} (hu : u ∈ afterIds s x k)
    (hv : v ∈ messageIds s) (hvx : x < v) (huv : v ≤ u) : v ∈ afterIds s x k := by
  have hvL : v ∈ isortBy (fun a b => decide (a ≤ b))
      ((messageIds s).filter (fun z => decide (x < z))) := by
    rw [mem_isortBy]
    exact List.mem_filter.2 ⟨hv, by simpa using hvx⟩
  have hsorted : (isortBy (fun a b => decide (a ≤ b))
      ((messageIds s).filter (fun z => decide (x < z)))).Pairwise
      (fun a b => decide (a ≤ b) = true) :=
    pairwise_isortBy (fun a b => decide (a ≤ b))
      (fun a b h => by
        simp only [decide_eq_false_iff_not, not_le] at h
        simp only [decide_eq_true_eq]
        omega)
      (fun a b c h1 h2 => by
        simp only [decide_eq_true_eq] at h1 h2 ⊢
        omega)
      _
  rw [← List.take_append_drop k (isortBy (fun a b => decide (a ≤ b))
    ((messageIds s).filter (fun z => decide (x < z))))] at hvL
  rcases List.mem_append.1 hvL with hvt | hvd
  · exact hvt
  · have hpair := List.pairwise_append.1 (by
      rwa [← List.take_append_drop k (isortBy (fun a b => decide (a ≤ b))
        ((messageIds s).filter (fun z => decide (x < z))))] at hsorted)
    have hvu : u ≤ v := by
      have := hpair.2.2 u hu v hvd
      simpa using this
    have : u = v := le_antisymm hvu huv
    rw [← this]
    exact hu

end AIQ

theorem isEmpty_false_of_mem {α : Type} {l : List α} {x : α} (h : x ∈ l) :
    l.isEmpty = false := by
  cases l with
  | nil => cases h
  | cons a t => rfl

namespace AIQ

theorem contains_iff {l : List Nat} {a : Nat} : l.contains a = true ↔ a ∈ l :=
  List.elem_iff

theorem getRecentMessages_eq (s : Store) (f : TimeFilter) (limit : Nat) :
    getRecentMessages (some s) f limit =
      (((isortBy (fun a b => decide (b.timestamp ≤ a.timestamp))
          (recentMatching s f)).take limit).reverse,
        (recentMatching s f).length) := rfl

/-- The join-and-fetch part of `getMessageContext` over a set of ids. -/
theorem getMessageContext_single_eq (s : Store) (tid : Nat) (k : Nat) :
    getMessageContext (some s) [tid] k =
      isortBy (fun a b => decide (a.id ≤ b.id))
        (s.messages.filterMap (fun msg =>
          if (contextIds s [tid] k).contains msg.id then (senderOf s msg).map (mkResult msg)
          else none)) := by
  have hmem : tid ∈ contextIds s [tid] k := mem_contextIds_single.2 (Or.inl rfl)
  unfold getMessageContext
  dsimp only
  rw [if_neg (by simp), if_neg (by rw [isEmpty_false_of_mem hmem]; simp)]

theorem context_joined_mem {s : Store} {cids : List Nat} {r : SearchMessageResult}
    (hr : r ∈ s.messages.filterMap (fun msg =>
      if cids.contains msg.id then (senderOf s msg).map (mkResult msg) else none)) :
    ∃ msg ∈ s.messages, ∃ m ∈ s.members, cids.contains msg.id = true ∧
      senderOf s msg = some m ∧ r = mkResult msg m ∧ r.id = msg.id := by
  rcases List.mem_filterMap.1 hr with ⟨msg, hmsg, hf⟩
  by_cases hc : cids.contains msg.id = true
  · rw [if_pos hc] at hf
    cases hso : senderOf s msg with
    | none => rw [hso] at hf; cases hf
    | some m =>
      rw [hso] at hf
      have hrm : r = mkResult msg m := (Option.some.inj hf).symm
      exact ⟨msg, hmsg, m, List.mem_of_find?_eq_some hso, hc, hso, hrm, by rw [hrm]; rfl⟩
  · rw [if_neg hc] at hf
    cases hf

theorem context_joined_ids_sublist {s : Store} {cids : List Nat} :
    ((s.messages.filterMap (fun msg =>
      if cids.contains msg.id then (senderOf s msg).map (mkResult msg) else none)).map
        (fun r => r.id)).Sublist (messageIds s) := by
  unfold messageIds
  induction s.messages with
  | nil => simp
  | cons g rest ih =>
    rw [List.filterMap_cons]
    cases hfg : (if cids.contains g.id then (senderOf s g).map (mkResult g) else none) with
    | none =>
      rw [List.map_cons]
      exact ih.cons _
    | some r =>
      have hid : r.id = g.id := by
        by_cases hc : cids.contains g.id = true
        · rw [if_pos hc] at hfg
          cases hso : senderOf s g with
          | none => rw [hso] at hfg; cases hfg
          | some m =>
            rw [hso] at hfg
            rw [← Option.some.inj hfg]
            rfl
        · rw [if_neg hc] at hfg
          cases hfg
      rw [List.map_cons, List.map_cons, hid]
      exact ih.cons₂ _

end AIQ

open DB AIQ in
/-- C1 (amended): every write of `importData` runs inside the single import
transaction, so a failure while executing any operation rolls the
store back to the freshly created empty state — no members, no
nickname-interval rows, no messages, and the leftover file has no meta
row so it is not readable as a session.  On success every member of the
parse result is durably present, and so is every message whose sender
platform id resolves through the member table; messages with unknown
senders are silently skipped by design. -/
theorem c1_import_atomicity (now : Int) (pr : DB.ParseResult) :
    (∀ k, k < (DB.importTxnOps now pr).length →
      (DB.importDataRun now pr (some k)).2 = false ∧
      (DB.importDataRun now pr (some k)).1 = DB.emptyStore ∧
      (DB.importDataRun now pr (some k)).1.members = [] ∧
      (DB.importDataRun now pr (some k)).1.history = [] ∧
      (DB.importDataRun now pr (some k)).1.messages = [] ∧
      DB.sessionReadable (DB.importDataRun now pr (some k)).1 = false) ∧
    ((DB.importDataRun now pr none).2 = true ∧
      (DB.importDataRun now pr none).1 = DB.importData now pr) ∧
    (∀ q ∈ pr.members, ∃ r ∈ (DB.importData now pr).members,
      r.platformId = q.platformId) ∧
    (∀ msg ∈ pr.messages, ∀ sid,
      DB.memberIdOf (DB.memberRowsOf pr.members) msg.senderPlatformId = some sid →
      (⟨sid, msg.timestamp, msg.type, msg.content⟩ : DB.MessageRow)
        ∈ (DB.importData now pr).messages) := by
  refine ⟨?_, ⟨rfl, DB.importTxnOps_foldl now pr⟩,
    fun q hq => DB.importData_member_present now pr hq,
    fun msg hmsg sid hsid => DB.importData_msg_mem now pr hmsg hsid⟩
  intro k hk
  have hrun : DB.importDataRun now pr (some k) = (DB.emptyStore, false) := by
    unfold DB.importDataRun DB.runTransaction
    dsimp only
    rw [if_pos hk]
  rw [hrun]
  exact ⟨rfl, rfl, rfl, rfl, rfl, rfl⟩

/-- C1 witness: the rollback clause applied to the concrete rename
scenario with a failure during the first operation. -/
theorem c1_witness :
    0 < (DB.importTxnOps 0 DB.prRename).length ∧
    (DB.importDataRun 0 DB.prRename (some 0)).2 = false ∧
    (DB.importDataRun 0 DB.prRename (some 0)).1 = DB.emptyStore := by
  refine ⟨by decide, ?_, ?_⟩
  · exact ((c1_import_atomicity 0 DB.prRename).1 0 (by decide)).1
  · exact ((c1_import_atomicity 0 DB.prRename).1 0 (by decide)).2.1

/-- C1 counterexample to the claim as stated: a parse result whose only
message has a sender platform id absent from the member list imports
successfully, yet that message of the parse result is not present in the
store. -/
theorem c1_counterexample :
    (DB.importDataRun 0 DB.prGhostSender none).2 = true ∧
    DB.prGhostSender.messages.length = 1 ∧
    (DB.importDataRun 0 DB.prGhostSender none).1.messages = [] := by
  refine ⟨by decide, rfl, by decide⟩

/-- C2 (amended): after `importData`, every member that has at least one
stored name-history interval (equivalently, that sent at least one imported
message) satisfies the nickname-history invariant: intervals
ordered by `start_ts` and pairwise non-overlapping, exactly one open
interval, the open interval is the chronologically last, and the
member's stored `name` equals the open interval's name.  A member that
never sent a message has no intervals at all, so the claim as stated
over every member fails. -/
theorem c2_nickname_invariant (now : Int) (pr : DB.ParseResult) :
    ∀ m ∈ (DB.importData now pr).members,
      DB.memberHistory (DB.importData now pr) m.id ≠ [] →
      DB.NicknameInvariant (DB.importData now pr) m.id :=
  DB.importData_nickname_invariant now pr

/-- C2 witness: the invariant holds for the renaming member of the
concrete scenario. -/
theorem c2_witness :
    (⟨1, "x", "Alicia"⟩ : DB.MemberRow) ∈ (DB.importData 0 DB.prRename).members ∧
    DB.memberHistory (DB.importData 0 DB.prRename) 1 ≠ [] ∧
    DB.NicknameInvariant (DB.importData 0 DB.prRename) 1 := by
  refine ⟨by decide, by decide, ?_⟩
  exact c2_nickname_invariant 0 DB.prRename ⟨1, "x", "Alicia"⟩ (by decide) (by decide)

/-- C2 counterexample to the claim as stated: a member listed in the
parse result that never sends a message ends up with zero history rows,
so no interval has `end_ts = null` and the "exactly one open interval"
clause fails for it. -/
theorem c2_counterexample :
    ∃ m, m ∈ (DB.importData 0 DB.prSilentMember).members ∧
      ¬ DB.NicknameInvariant (DB.importData 0 DB.prSilentMember) m.id := by
  refine ⟨⟨1, "x", "X"⟩, by decide, fun h => ?_⟩
  have hc := h.2.1
  dsimp only at hc
  rw [show DB.memberHistory (DB.importData 0 DB.prSilentMember) 1 = [] by decide] at hc
  rw [List.countP_nil] at hc
  cases hc

/-- C10: after `importData`, every member's history timeline is
contiguous: each closed interval's `end_ts` equals the `start_ts` of the
member's next interval, because a rename closes the open interval at
exactly the timestamp that starts the new one. -/
theorem c10_contiguous_history (now : Int) (pr : DB.ParseResult) :
    ∀ m ∈ (DB.importData now pr).members,
      (DB.memberHistory (DB.importData now pr) m.id).Chain'
        (fun a b => a.endTs = some b.startTs) :=
  DB.importData_history_chain now pr

/-- C10 witness: contiguity for the renaming member of the concrete
scenario. -/
theorem c10_witness :
    (⟨1, "x", "Alicia"⟩ : DB.MemberRow) ∈ (DB.importData 0 DB.prRename).members ∧
    (DB.memberHistory (DB.importData 0 DB.prRename) 1).Chain'
      (fun a b => a.endTs = some b.startTs) :=
  ⟨by decide, c10_contiguous_history 0 DB.prRename ⟨1, "x", "Alicia"⟩ (by decide)⟩

/-- C5: importing two parse results that differ only by a permutation of
the message list yields identical nickname-history tables and identical
member tables whenever all message timestamps are distinct (the import
sorts by timestamp first); and when timestamps tie, the results can
genuinely differ with the tie-break order. -/
theorem c5_order_independence :
    (∀ (now : Int) (pm : DB.ParseMeta) (mems : List DB.ParsedMember)
      (msgs1 msgs2 : List DB.ParsedMessage), msgs1.Perm msgs2 →
      (msgs1.map (fun m => m.timestamp)).Nodup →
      (DB.importData now ⟨pm, mems, msgs1⟩).history
          = (DB.importData now ⟨pm, mems, msgs2⟩).history ∧
        (DB.importData now ⟨pm, mems, msgs1⟩).members
          = (DB.importData now ⟨pm, mems, msgs2⟩).members) ∧
    (∃ (now : Int) (pm : DB.ParseMeta) (mems : List DB.ParsedMember)
      (msgs1 msgs2 : List DB.ParsedMessage), msgs1.Perm msgs2 ∧
      (DB.importData now ⟨pm, mems, msgs1⟩).history
        ≠ (DB.importData now ⟨pm, mems, msgs2⟩).history) := by
  constructor
  · intro now pm mems msgs1 msgs2 hp hnd
    rw [DB.importData_perm_eq hp hnd]
    exact ⟨rfl, rfl⟩
  · exact ⟨0, DB.metaTie, DB.membersTie, DB.msgsTieA, DB.msgsTieB, by decide, by decide⟩

/-- C5 witness: equality of histories for a concrete permutation with
distinct timestamps. -/
theorem c5_witness :
    DB.msgsDistinctA.Perm DB.msgsDistinctB ∧
    (DB.msgsDistinctA.map (fun m => m.timestamp)).Nodup ∧
    (DB.importData 0 ⟨DB.metaTie, DB.membersTie, DB.msgsDistinctA⟩).history =
      (DB.importData 0 ⟨DB.metaTie, DB.membersTie, DB.msgsDistinctB⟩).history := by
  refine ⟨by decide, by decide, ?_⟩
  exact (c5_order_independence.1 0 DB.metaTie DB.membersTie DB.msgsDistinctA DB.msgsDistinctB
    (by decide) (by decide)).1

/-- C3: `getMemberActivity` returns per-member counts whose sum equals
the separately computed filtered non-system total; each percentage is
`round(count/total*10000)/100` (0 when the total is 0) and lies between
0 and 100; rows are ordered by count descending; zero-count members are
excluded. -/
theorem c3_member_activity (s : DB.Store) (f : DB.TimeFilter)
    (hnd : (s.members.map (fun r => r.id)).Nodup) :
    ((DB.getMemberActivity s f).map (fun r => r.messageCount)).sum
        = DB.totalMessages s f ∧
    (∀ r ∈ DB.getMemberActivity s f,
      r.percentage = DB.activityPercentage r.messageCount (DB.totalMessages s f) ∧
      0 ≤ r.percentage ∧ r.percentage ≤ 100 ∧ 0 < r.messageCount) ∧
    (DB.getMemberActivity s f).Pairwise (fun a b => b.messageCount ≤ a.messageCount) := by
  refine ⟨DB.getMemberActivity_sum s f hnd, ?_, DB.getMemberActivity_sorted s f⟩
  intro r hr
  obtain ⟨⟨m, hm, hsys, heq⟩, hpos⟩ := DB.getMemberActivity_mem hr
  have hcount : r.messageCount = DB.memberMsgCount s f m.id := by rw [heq]
  have hperc : r.percentage
      = DB.activityPercentage r.messageCount (DB.totalMessages s f) := by
    rw [heq]
  have hle : r.messageCount ≤ DB.totalMessages s f := by
    have hmem : r.messageCount ∈ (DB.getMemberActivity s f).map (fun x => x.messageCount) :=
      List.mem_map.2 ⟨r, hr, rfl⟩
    have hsum := List.single_le_sum
      (l := (DB.getMemberActivity s f).map (fun x => x.messageCount))
      (fun x _ => Nat.zero_le x) _ hmem
    rwa [DB.getMemberActivity_sum s f hnd] at hsum
  have hb := DB.activityPercentage_bounds hle
  exact ⟨hperc, by rw [hperc]; exact hb.1, by rw [hperc]; exact hb.2, hpos⟩

/-- C3 witness: the concrete rename scenario, whose member ids are
distinct, applied to the sum clause. -/
theorem c3_witness :
    (((DB.importData 0 DB.prRename).members.map (fun r => r.id)).Nodup) ∧
    (((DB.getMemberActivity (DB.importData 0 DB.prRename) {}).map
      (fun r => r.messageCount)).sum
      = DB.totalMessages (DB.importData 0 DB.prRename) {}) := by
  refine ⟨by decide, ?_⟩
  exact (c3_member_activity (DB.importData 0 DB.prRename) {} (by decide)).1

/-- C7 (amended): `deleteSession` removes the primary session file and
the `-wal`/`-shm` side files; it returns `true` — not `false` — when the
primary file was already absent (each unlink is guarded by an existence
check), a second call on the same id likewise returns `true`, and
`false` is returned only when a removal raises. -/
theorem c7_delete_session (fs : DB.FsState) (sid : String)
    (hnodup : fs.files.Nodup) (hfail : fs.failing = []) :
    (DB.deleteSession fs sid).1 = true ∧
    DB.dbPath sid ∉ (DB.deleteSession fs sid).2.files ∧
    (DB.dbPath sid ++ "-wal") ∉ (DB.deleteSession fs sid).2.files ∧
    (DB.dbPath sid ++ "-shm") ∉ (DB.deleteSession fs sid).2.files ∧
    (DB.deleteSession (DB.deleteSession fs sid).2 sid).1 = true := by
  have h1 := @DB.deleteSession_ok fs sid hfail
  rw [h1]
  have hn1 : (fs.files.erase (DB.dbPath sid)).Nodup := hnodup.erase _
  have hn2 : ((fs.files.erase (DB.dbPath sid)).erase (DB.dbPath sid ++ "-wal")).Nodup :=
    hn1.erase _
  have hn3 : (((fs.files.erase (DB.dbPath sid)).erase (DB.dbPath sid ++ "-wal")).erase
      (DB.dbPath sid ++ "-shm")).Nodup := hn2.erase _
  refine ⟨rfl, ?_, ?_, ?_, ?_⟩
  · intro hmem
    have h2 : DB.dbPath sid ∈ fs.files.erase (DB.dbPath sid) :=
      List.mem_of_mem_erase (List.mem_of_mem_erase hmem)
    exact ((hnodup.mem_erase_iff).1 h2).1 rfl
  · intro hmem
    have h2 : (DB.dbPath sid ++ "-wal")
        ∈ (fs.files.erase (DB.dbPath sid)).erase (DB.dbPath sid ++ "-wal") :=
      List.mem_of_mem_erase hmem
    exact ((hn1.mem_erase_iff).1 h2).1 rfl
  · intro hmem
    exact ((hn2.mem_erase_iff).1 hmem).1 rfl
  · rw [DB.deleteSession_ok (by rw [hfail])]

/-- C7 witness: deleting a session whose primary and WAL files exist,
next to an unrelated file. -/
theorem c7_witness :
    (DB.fsW.files.Nodup ∧ DB.fsW.failing = []) ∧
    (DB.deleteSession DB.fsW "chat_1").1 = true ∧
    DB.dbPath "chat_1" ∉ (DB.deleteSession DB.fsW "chat_1").2.files := by
  refine ⟨⟨by decide, rfl⟩, ?_, ?_⟩
  · exact (c7_delete_session DB.fsW "chat_1" (by decide) rfl).1
  · exact (c7_delete_session DB.fsW "chat_1" (by decide) rfl).2.1

/-- C7 counterexample to the claim as stated: when the primary file is
already absent, `deleteSession` returns `true`, not `false` — it never
errors just because the file is missing, and a second delete also
returns `true`. -/
theorem c7_counterexample :
    (DB.deleteSession ⟨[], []⟩ "chat_1").1 = true ∧
    (DB.deleteSession ⟨[], []⟩ "chat_1").1 ≠ false := by
  refine ⟨by decide, by decide⟩

/-- C9: `getMessageContext` returns the empty list when the session's
store cannot be opened, and also when called with an empty list of
message ids; being a total function of the embedded state, it raises no
error on these inputs. -/
theorem c9_context_empty (s : AIQ.Store) (ids : List Nat) (k : Nat) :
    AIQ.getMessageContext none ids k = [] ∧
    AIQ.getMessageContext (some s) [] k = [] :=
  ⟨rfl, rfl⟩

/-- C8: `searchMessages` splices each keyword into a `LIKE` pattern
`%keyword%` without escaping `%` or `_`, so a keyword containing `_`
matches (and returns) a message whose content does not contain the
keyword as a literal substring. -/
theorem c8_like_wildcard :
    ∃ (s : AIQ.Store) (keyword : String) (r : AIQ.SearchMessageResult) (str : String),
      '_' ∈ keyword.toList ∧
      r ∈ (AIQ.searchMessages (some s) [keyword] {} 20 0 none).1 ∧
      r.content = some str ∧
      ¬ (keyword.toList <:+: str.toList) := by
  refine ⟨AIQ.storeWildcard, "a_c",
    AIQ.mkResult ⟨1, 1, 100, 0, some "abc"⟩ ⟨1, "p1", some "alice", none⟩, "abc",
    by decide, by decide, rfl, by decide⟩

/-- C6: `getRecentMessages` returns only plain-text (`type = 0`),
non-empty-content messages from non-system senders inside the filter;
the returned list is chronological (oldest of the selected window
first); the selected window consists of the most recent matches (every
unselected match is no newer than every selected one); and `total`
counts all matches regardless of the limit. -/
theorem c6_recent_messages (s : AIQ.Store) (f : AIQ.TimeFilter) (limit : Nat) :
    (∀ r ∈ (AIQ.getRecentMessages (some s) f limit).1,
      ∃ msg ∈ s.messages, ∃ m ∈ s.members, m.id = msg.senderId ∧
        AIQ.inTimeFilter f msg.ts = true ∧ AIQ.isSystemSender m = false ∧ msg.type = 0 ∧
        (∃ str, msg.content = some str ∧ str ≠ "") ∧ r = AIQ.mkResult msg m) ∧
    (AIQ.getRecentMessages (some s) f limit).1.Pairwise
      (fun a b => a.timestamp ≤ b.timestamp) ∧
    (∀ a ∈ (AIQ.getRecentMessages (some s) f limit).1,
      ∀ q ∈ AIQ.recentMatching s f, q ∉ (AIQ.getRecentMessages (some s) f limit).1 →
        q.timestamp ≤ a.timestamp) ∧
    (AIQ.getRecentMessages (some s) f limit).2 = (AIQ.recentMatching s f).length := by
  rw [AIQ.getRecentMessages_eq]
  have hsorted : (isortBy
      (fun a b : AIQ.SearchMessageResult => decide (b.timestamp ≤ a.timestamp))
      (AIQ.recentMatching s f)).Pairwise
      (fun a b => decide (b.timestamp ≤ a.timestamp) = true) :=
    pairwise_isortBy (fun a b : AIQ.SearchMessageResult => decide (b.timestamp ≤ a.timestamp))
      (fun a b h => by
        simp only [decide_eq_false_iff_not, not_le] at h
        simp only [decide_eq_true_eq]
        omega)
      (fun a b c h1 h2 => by
        simp only [decide_eq_true_eq] at h1 h2 ⊢
        omega)
      _
  refine ⟨?_, ?_, ?_, rfl⟩
  · intro r hr
    rw [List.mem_reverse] at hr
    have h2 : r ∈ isortBy
        (fun a b : AIQ.SearchMessageResult => decide (b.timestamp ≤ a.timestamp))
        (AIQ.recentMatching s f) := (List.take_sublist limit _).subset hr
    rw [mem_isortBy] at h2
    exact AIQ.recentMatching_mem h2
  · rw [List.pairwise_reverse]
    exact (List.Pairwise.sublist (List.take_sublist limit _) hsorted).imp
      (fun h => by simpa using h)
  · intro a ha q hq hqn
    rw [List.mem_reverse] at ha
    rw [List.mem_reverse] at hqn
    have hqL : q ∈ isortBy
        (fun a b : AIQ.SearchMessageResult => decide (b.timestamp ≤ a.timestamp))
        (AIQ.recentMatching s f) := by
      rw [mem_isortBy]
      exact hq
    rw [← List.take_append_drop limit (isortBy
      (fun a b : AIQ.SearchMessageResult => decide (b.timestamp ≤ a.timestamp))
      (AIQ.recentMatching s f))] at hqL
    rcases List.mem_append.1 hqL with h | h
    · exact absurd h hqn
    · have hpair := List.pairwise_append.1 (by
        rwa [← List.take_append_drop limit (isortBy
          (fun a b : AIQ.SearchMessageResult => decide (b.timestamp ≤ a.timestamp))
          (AIQ.recentMatching s f))] at hsorted)
      have := hpair.2.2 a ha q h
      simpa using this

/-- C4: for a stored message id and any context size `k` (over a store
with distinct message ids whose senders all exist, as the schema's
primary key and foreign key prescribe), `getMessageContext([id], k)`
returns at most `2k + 1` rows, includes the target id, is sorted
ascending by id, applies no content/type/sender filtering (every stored
message whose id is in the computed context-id set is returned with its
content, type and timestamp intact), and has no gaps: between two
returned ids there is no unreturned stored message, in particular none
within `k` of the nearer boundary. -/
theorem c4_message_context (s : AIQ.Store) (tid : Nat) (k : Nat)
    (htid : tid ∈ AIQ.messageIds s)
    (hnd : (AIQ.messageIds s).Nodup)
    (hri : ∀ msg ∈ s.messages, ∃ m ∈ s.members, m.id = msg.senderId) :
    (AIQ.getMessageContext (some s) [tid] k).length ≤ 2 * k + 1 ∧
    (∃ r ∈ AIQ.getMessageContext (some s) [tid] k, r.id = tid) ∧
    (AIQ.getMessageContext (some s) [tid] k).Pairwise (fun a b => a.id ≤ b.id) ∧
    (∀ msg ∈ s.messages, (AIQ.contextIds s [tid] k).contains msg.id = true →
      ∃ r ∈ AIQ.getMessageContext (some s) [tid] k,
        r.id = msg.id ∧ r.content = msg.content ∧ r.type = msg.type ∧
          r.timestamp = msg.ts) ∧
    (∀ a ∈ AIQ.getMessageContext (some s) [tid] k,
      ∀ b ∈ AIQ.getMessageContext (some s) [tid] k, a.id < b.id →
      ∀ msg ∈ s.messages, a.id < msg.id → msg.id < b.id →
        (msg.id ≤ a.id + k ∨ b.id ≤ msg.id + k) →
        ∃ r ∈ AIQ.getMessageContext (some s) [tid] k, r.id = msg.id) := by
  rw [AIQ.getMessageContext_single_eq]
  have hgen : ∀ msg ∈ s.messages, (AIQ.contextIds s [tid] k).contains msg.id = true →
      ∃ r ∈ isortBy (fun a b => decide (a.id ≤ b.id))
        (s.messages.filterMap (fun msg =>
          if (AIQ.contextIds s [tid] k).contains msg.id
          then (AIQ.senderOf s msg).map (AIQ.mkResult msg) else none)),
        r.id = msg.id ∧ r.content = msg.content ∧ r.type = msg.type ∧
          r.timestamp = msg.ts := by
    intro msg hmsg hc
    rcases hri msg hmsg with ⟨m, hm, hmid⟩
    have hsome : (AIQ.senderOf s msg).isSome = true :=
      List.find?_isSome.2 ⟨m, hm, by simp [hmid]⟩
    cases hso : AIQ.senderOf s msg with
    | none => rw [hso] at hsome; cases hsome
    | some m2 =>
      refine ⟨AIQ.mkResult msg m2, ?_, rfl, rfl, rfl, rfl⟩
      rw [mem_isortBy]
      exact List.mem_filterMap.2 ⟨msg, hmsg, by rw [if_pos hc, hso]; rfl⟩
  refine ⟨?_, ?_, ?_, hgen, ?_⟩
  · have hlen1 : (isortBy (fun a b => decide (a.id ≤ b.id))
        (s.messages.filterMap (fun msg =>
          if (AIQ.contextIds s [tid] k).contains msg.id
          then (AIQ.senderOf s msg).map (AIQ.mkResult msg) else none))).length =
        (s.messages.filterMap (fun msg =>
          if (AIQ.contextIds s [tid] k).contains msg.id
          then (AIQ.senderOf s msg).map (AIQ.mkResult msg) else none)).length :=
      (perm_isortBy _ _).length_eq
    have hsub := @AIQ.context_joined_ids_sublist s (AIQ.contextIds s [tid] k)
    have hnodup2 := List.Nodup.sublist hsub hnd
    have hsubset : ((s.messages.filterMap (fun msg =>
        if (AIQ.contextIds s [tid] k).contains msg.id
        then (AIQ.senderOf s msg).map (AIQ.mkResult msg) else none)).map (fun r => r.id))
        ⊆ AIQ.contextIds s [tid] k := by
      intro y hy
      rcases List.mem_map.1 hy with ⟨r, hr, hry⟩
      rcases AIQ.context_joined_mem hr with ⟨msg, _, m, _, hc, _, _, hid⟩
      rw [← hry, hid]
      exact AIQ.contains_iff.1 hc
    have hle := (List.subperm_of_subset hnodup2 hsubset).length_le
    rw [List.length_map] at hle
    have hcl := AIQ.contextIds_single_len (s := s) (x := tid) (k := k)
    rw [hlen1]
    omega
  · rcases List.mem_map.1 htid with ⟨msg, hmsg, hmid⟩
    rcases hgen msg hmsg (by
      rw [AIQ.contains_iff, hmid]
      exact AIQ.mem_contextIds_single.2 (Or.inl rfl)) with ⟨r, hr, hrid, _, _, _⟩
    exact ⟨r, hr, by rw [hrid, hmid]⟩
  · exact (pairwise_isortBy
      (fun a b : AIQ.SearchMessageResult => decide (a.id ≤ b.id))
      (fun a b h => by
        simp only [decide_eq_false_iff_not, not_le] at h
        simp only [decide_eq_true_eq]
        omega)
      (fun a b c h1 h2 => by
        simp only [decide_eq_true_eq] at h1 h2 ⊢
        omega)
      _).imp (fun h => by simpa using h)
  · intro a ha b hb hab msg hmsg h1 h2 hwithin
    rw [mem_isortBy] at ha hb
    rcases AIQ.context_joined_mem ha with ⟨msga, hmsga, ma, hma, hca, _, _, hida⟩
    rcases AIQ.context_joined_mem hb with ⟨msgb, hmsgb, mb, hmb, hcb, _, _, hidb⟩
    have hacids : a.id ∈ AIQ.contextIds s [tid] k := by
      rw [hida]
      exact AIQ.contains_iff.1 hca
    have hbcids : b.id ∈ AIQ.contextIds s [tid] k := by
      rw [hidb]
      exact AIQ.contains_iff.1 hcb
    have hmidmem : msg.id ∈ AIQ.messageIds s := List.mem_map.2 ⟨msg, hmsg, rfl⟩
    have hmidcids : msg.id ∈ AIQ.contextIds s [tid] k := by
      rcases Nat.lt_trichotomy msg.id tid with hlt | heq | hgt
      · rcases AIQ.mem_contextIds_single.1 hacids with haeq | habef | haaft
        · omega
        · exact AIQ.mem_contextIds_single.2 (Or.inr (Or.inl
            (AIQ.beforeIds_closed habef hmidmem hlt (le_of_lt h1))))
        · have := (AIQ.afterIds_gt haaft).1
          omega
      · exact AIQ.mem_contextIds_single.2 (Or.inl heq)
      · rcases AIQ.mem_contextIds_single.1 hbcids with hbeq | hbbef | hbaft
        · omega
        · have := (AIQ.beforeIds_lt hbbef).1
          omega
        · exact AIQ.mem_contextIds_single.2 (Or.inr (Or.inr
            (AIQ.afterIds_closed hbaft hmidmem hgt (le_of_lt h2))))
    rcases hgen msg hmsg (AIQ.contains_iff.2 hmidcids) with ⟨r, hr, hrid, _, _, _⟩
    exact ⟨r, hr, hrid⟩

/-- C4 witness: five stored messages, target id 3, context size 1. -/
theorem c4_witness :
    (3 ∈ AIQ.messageIds AIQ.storeFive ∧ (AIQ.messageIds AIQ.storeFive).Nodup ∧
      (∀ msg ∈ AIQ.storeFive.messages, ∃ m ∈ AIQ.storeFive.members,
        m.id = msg.senderId)) ∧
    ∃ r ∈ AIQ.getMessageContext (some AIQ.storeFive) [3] 1, r.id = 3 := by
  refine ⟨⟨by decide, by decide, by decide⟩, ?_⟩
  exact (c4_message_context AIQ.storeFive 3 1 (by decide) (by decide) (by decide)).2.1

/-- C6 witness: the filter/order/total clauses applied to the concrete
five-message store. -/
theorem c6_witness :
    (AIQ.getRecentMessages (some AIQ.storeFive) {} 2).2
      = (AIQ.recentMatching AIQ.storeFive {}).length := by
  exact (c6_recent_messages AIQ.storeFive {} 2).2.2.2
